import Mathlib

/-!
Verification of the chat-log parsing / cleaning / prompt-assembly /
response-normalization pipeline.

The Lean definitions below are a shallow embedding of the Python sources
`data_loader.py` and `bot_engine.py`:

* `parse_raw_chat`  embeds `data_loader.parse_raw_chat` (regex line parser);
* `clean_messages`  embeds `data_loader.clean_messages` (phone redaction,
  whitespace collapsing, empty-record dropping);
* `build_prompt`    embeds `GeminiBot.build_prompt`;
* `extract_text`    embeds `GeminiBot._extract_text` over a model `PyVal`
  of Python runtime values (exceptions are modelled with `Except`);
* `generate_response` embeds the bounded retry loop of
  `GeminiBot.generate_response`, with the SDK call as an oracle parameter.

Conventions for the embedding:

* Python strings are Lean `String`s; character classes (`\s`, `\w`, `\d`
  of the `re` module) are modelled on their ASCII fragment (`isSpace`,
  `isWordChar`, `Char.isDigit`).  All inputs appearing in the theorems
  are ASCII, so this restriction is invisible to the claims.
* The two regular expressions of `data_loader.py` are compiled to
  recursive matchers that implement the backtracking semantics of the
  patterns (lazy `.*?`, greedy `\s*`, word boundaries of `\b1\d{10}\b`,
  left-to-right non-overlapping `re.sub` scanning).
-/

/-- ASCII fragment of Python's `\s` class (also used by `str.strip`):
space, tab, newline, carriage return, vertical tab, form feed. -/
def isSpace (c : Char) : Bool :=
  c = ' ' || c = '\t' || c = '\n' || c = '\r' || c = '\x0b' || c = '\x0c'

/-- ASCII fragment of Python's `\w` class: letters, digits, underscore. -/
def isWordChar (c : Char) : Bool :=
  c.isAlphanum || c = '_'

/-- Left strip: drop leading whitespace. -/
def trimL (l : List Char) : List Char := l.dropWhile isSpace

/-- Right strip: drop trailing whitespace. -/
def trimR (l : List Char) : List Char := (l.reverse.dropWhile isSpace).reverse

/-- Python `str.strip()` on the character list. -/
def pyStrip (l : List Char) : List Char := trimR (trimL l)

/-- `str.strip()` at the `String` level. -/
def pyStripStr (s : String) : String := String.mk (pyStrip s.data)

/-- Split a character list at newline characters (the pieces do not
contain the separators).  Mirrors how `parse_raw_chat` consumes its file
line by line: `for line in f` followed by `line.strip()` yields exactly
the `'\n'`-separated pieces, each subsequently stripped. -/
def splitNl : List Char → List (List Char)
  | [] => [[]]
  | c :: cs =>
    if c = '\n' then [] :: splitNl cs
    else
      match splitNl cs with
      | [] => [[c]]
      | l :: ls => (c :: l) :: ls

/-- The lines of a string, Python-file-iteration style. -/
def pyLines (s : String) : List String := (splitNl s.data).map String.mk

/-- A parsed chat message: the `groupdict` of the row regex
`^\[(?P<time>.*?)\]\s*(?P<sender>.*?):\s*(?P<content>.*)$`
and also the record shape `{time, sender, content}` produced by
`clean_messages`. -/
structure ChatRow where
  time : String
  sender : String
  content : String
deriving DecidableEq, Repr

/-- Matcher for the tail `(?P<sender>.*?):\s*(?P<content>.*)$` of
`CHAT_LINE_RE`: the lazy `.*?` puts the first `':'` after the sender,
then the greedy `\s*` eats whitespace and `(?P<content>.*)$` takes the
rest of the line.  Returns `(sender, content)`. -/
def matchSender : List Char → Option (List Char × List Char)
  | [] => none
  | c :: rest =>
    if c = ':' then some ([], rest.dropWhile isSpace)
    else (matchSender rest).map fun p => (c :: p.1, p.2)

/-- Matcher for `(?P<time>.*?)\]\s*(?P<sender>.*?):...` after the
opening `'['`: the lazy `(?P<time>.*?)` stops at the first `']'` from
which the rest of the pattern succeeds; on failure the `']'` is absorbed
into the time group and scanning continues (regex backtracking).
Returns `(time, sender, content)`. -/
def matchTime : List Char → Option (List Char × List Char × List Char)
  | [] => none
  | c :: rest =>
    if c = ']' then
      match matchSender (rest.dropWhile isSpace) with
      | some (s, co) => some ([], s, co)
      | none => (matchTime rest).map fun t => (c :: t.1, t.2.1, t.2.2)
    else (matchTime rest).map fun t => (c :: t.1, t.2.1, t.2.2)

/-- `CHAT_LINE_RE.match(line)` followed by `groupdict()`:
the anchored pattern `^\[(?P<time>.*?)\]\s*(?P<sender>.*?):\s*(?P<content>.*)$`. -/
def matchChatLine (line : String) : Option ChatRow :=
  match line.data with
  | '[' :: rest => (matchTime rest).map fun t => ⟨String.mk t.1, String.mk t.2.1, String.mk t.2.2⟩
  | _ => none

/-- `rows[-1]['content'] += '\n' + line` on a nonempty row list
(the empty case is unreachable: the caller guards with `if rows:`). -/
def appendToLast : List ChatRow → String → List ChatRow
  | [], _ => []
  | [r], line => [{ r with content := r.content ++ "\n" ++ line }]
  | r :: rs, line => r :: appendToLast rs line

/-- One iteration of the `for line in f` loop of `parse_raw_chat`. -/
def parseStep (rows : List ChatRow) (rawLine : String) : List ChatRow :=
  let line := pyStripStr rawLine
  if line = "" then rows
  else
    match matchChatLine line with
    | some r => rows ++ [r]
    | none => if rows.isEmpty then rows else appendToLast rows line

/-- `parse_raw_chat`: strip each line, skip blanks, append a row on a
regex match, merge a non-matching line into the previous row's content
(or drop it when no row exists yet). -/
def parse_raw_chat (text : String) : List ChatRow :=
  (pyLines text).foldl parseStep []

example : parse_raw_chat "[10:00] Alice: hi\nextra line" =
    [⟨"10:00", "Alice", "hi\nextra line"⟩] := by decide

example : parse_raw_chat "" = [] := by decide

example : parse_raw_chat "\n  \n\t\n" = [] := by decide

example : matchChatLine "[a:b]c" = none := by decide

example : matchChatLine "[a]b]c: d" = some ⟨"a", "b]c", "d"⟩ := by decide

example : matchChatLine "[t]  x  :  y " = some ⟨"t", "x  ", "y "⟩ := by decide

/-- The replacement text of the phone redaction: `'[PHONE]'`. -/
def phoneTok : List Char := ['[', 'P', 'H', 'O', 'N', 'E', ']']

/-- A match of `1\d{10}\b` starting at the head of `cs`, assuming the
leading `\b` already holds at this position: eleven ASCII digits whose
first is `'1'`, with the following character (if any) not a word
character. -/
def phoneOk (cs : List Char) : Bool :=
  (cs.take 11).length = 11 && cs.head? = some '1' &&
    (cs.take 11).all Char.isDigit &&
    ((cs.drop 11).head?.all fun d => !isWordChar d)

/-- The `re.sub(r'\b1\d{10}\b', '[PHONE]', content)` scan.  `w` records
whether the previous character was a word character (so `\b` holds at
the current position iff `!w`, the next character being a digit).
`skip` counts characters of an accepted match still to be consumed; the
scan resumes after the match (non-overlapping, left to right).  The
counter keeps the recursion structural. -/
def redactAux : List Char → Bool → Nat → List Char
  | [], _, _ => []
  | _ :: cs, _, (skip+1) => redactAux cs true skip
  | c :: cs, w, 0 =>
    if !w && phoneOk (c :: cs) then
      phoneTok ++ redactAux cs true 10
    else
      c :: redactAux cs (isWordChar c) 0

/-- `re.sub(r'\b1\d{10}\b', '[PHONE]', s)`. -/
def redactPhones (s : String) : String := String.mk (redactAux s.data false 0)

/-- The `re.sub(r'\s+', ' ', content)` scan: each maximal whitespace run
becomes one space.  `inRun` records whether the previous character was
whitespace (i.e. the run has already emitted its space). -/
def collapseAux : List Char → Bool → List Char
  | [], _ => []
  | c :: cs, inRun =>
    if isSpace c then
      if inRun then collapseAux cs true
      else ' ' :: collapseAux cs true
    else c :: collapseAux cs false

/-- `re.sub(r'\s+', ' ', s).strip()` composed with the phone redaction:
the content transformation applied to each row by `clean_messages`. -/
def cleanContent (s : String) : String :=
  String.mk (pyStrip (collapseAux (redactAux s.data false 0) false))

/-- `clean_messages`: redact phone numbers, collapse whitespace, strip,
and drop rows whose content became empty.  Row order is preserved. -/
def clean_messages (rows : List ChatRow) : List ChatRow :=
  rows.filterMap fun r =>
    let c := cleanContent r.content
    if c = "" then none else some ⟨r.time, r.sender, c⟩

example : clean_messages [⟨"t", "s", "call 12345678901 now"⟩] =
    [⟨"t", "s", "call [PHONE] now"⟩] := by decide

example : clean_messages [⟨"t", "s", "a12345678901b"⟩] =
    [⟨"t", "s", "a12345678901b"⟩] := by decide

example : clean_messages [⟨"t", "s", "123456789012"⟩] =
    [⟨"t", "s", "123456789012"⟩] := by decide

example : clean_messages [⟨"t", "s", "  a \t b\n\nc "⟩] =
    [⟨"t", "s", "a b c"⟩] := by decide

example : clean_messages [⟨"t", "s", " \t \n"⟩] = [] := by decide

example : cleanContent "12345678901 x 12345678901" = "[PHONE] x [PHONE]" := by decide

example : cleanContent "12345678901" = "[PHONE]" := by decide

/-- Python `sep.join(lines)`. -/
def pyJoin (sep : String) : List String → String
  | [] => ""
  | [x] => x
  | x :: y :: xs => x ++ sep ++ pyJoin sep (y :: xs)

/-- `GeminiBot.build_prompt(memories, user_input, persona_desc)`:
`MAX_EXAMPLES = 6`; `chosen = memories[-6:]`; an optional
`f"Personality: {persona_desc}\n"` element (note the trailing newline
inside the element), the header line, the chosen records rendered most
recent first as `f"{sender}: {content}"`, the `"\nUser: " + user_input`
element (note the leading newline inside the element), a final
`"Assistant:"` element; all joined with `"\n"`.
The `m.get("sender", "Unknown")` / `m.get("content", "")` accesses of
the source always find their keys on the records this pipeline builds,
so the records are modelled as `ChatRow`s. -/
def build_prompt (memories : List ChatRow) (user_input : String)
    (persona_desc : String) : String :=
  let chosen := memories.drop (memories.length - 6)
  let lines : List String :=
    (if persona_desc ≠ "" then ["Personality: " ++ persona_desc ++ "\n"] else [])
    ++ ["Conversation history (most recent first):"]
    ++ chosen.reverse.map (fun m => m.sender ++ ": " ++ m.content)
    ++ ["\nUser: " ++ user_input, "Assistant:"]
  pyJoin "\n" lines

/-- Modelled from the spec's words for claim C7 (refinement comparison
only; not part of the source embedding): "a Personality line prepended
exactly when personaDescription is non-empty, then the literal header
line, then the rendered history lines, then User: input, then a literal
final line Assistant:, all joined with newline". -/
def claimedPromptC7 (memories : List ChatRow) (user_input : String)
    (persona_desc : String) : String :=
  let chosen := memories.drop (memories.length - 6)
  pyJoin "\n"
    ((if persona_desc ≠ "" then ["Personality: " ++ persona_desc] else [])
      ++ ["Conversation history (most recent first):"]
      ++ chosen.reverse.map (fun m => m.sender ++ ": " ++ m.content)
      ++ ["User: " ++ user_input, "Assistant:"])

example : build_prompt [] "u" "p" =
    "Personality: p\n\nConversation history (most recent first):\n\nUser: u\nAssistant:" := by
  decide

example : build_prompt [⟨"1", "A", "x"⟩, ⟨"2", "B", "y"⟩] "u" "" =
    "Conversation history (most recent first):\nB: y\nA: x\n\nUser: u\nAssistant:" := by
  decide

example : claimedPromptC7 [] "u" "p" =
    "Personality: p\nConversation history (most recent first):\nUser: u\nAssistant:" := by
  decide

/-! Model of the Python runtime values that can reach `_extract_text`:
strings, ints, `None`, lists, dicts (with string keys, as produced by
JSON-style SDK responses) and attribute-carrying objects.  The list and
field spines are mutual inductives so that all functions over them are
structurally recursive. -/
mutual
inductive PyVal where
  | vStr (s : String)
  | vInt (n : Int)
  | vNone
  | vList (xs : PyList)
  | vDict (es : PyFields)
  | vObj (attrs : PyFields)
deriving DecidableEq

inductive PyList where
  | nil
  | cons (v : PyVal) (t : PyList)
deriving DecidableEq

inductive PyFields where
  | nil
  | cons (k : String) (v : PyVal) (t : PyFields)
deriving DecidableEq
end

/-- Build a `PyList` spine from a Lean list (notation helper). -/
def PyList.ofList : List PyVal → PyList
  | [] => .nil
  | v :: t => .cons v (PyList.ofList t)

/-- Build a `PyFields` spine from a Lean association list (notation helper). -/
def PyFields.ofList : List (String × PyVal) → PyFields
  | [] => .nil
  | e :: t => .cons e.1 e.2 (PyFields.ofList t)

/-- A Python list value. -/
def pyList (xs : List PyVal) : PyVal := PyVal.vList (PyList.ofList xs)

/-- A Python dict value. -/
def pyDict (es : List (String × PyVal)) : PyVal := PyVal.vDict (PyFields.ofList es)

/-- First binding of a key in a field spine. -/
def PyFields.lookup : PyFields → String → Option PyVal
  | .nil, _ => none
  | .cons k v t, key => if k = key then some v else PyFields.lookup t key

/-- Length of a list spine. -/
def PyList.length : PyList → Nat
  | .nil => 0
  | .cons _ t => 1 + PyList.length t

/-- Length of a field spine. -/
def PyFields.length : PyFields → Nat
  | .nil => 0
  | .cons _ _ t => 1 + PyFields.length t

/-- Python truthiness of the modelled values. -/
def pyTruthy : PyVal → Bool
  | .vStr s => s ≠ ""
  | .vInt n => n ≠ 0
  | .vNone => false
  | .vList .nil => false
  | .vList _ => true
  | .vDict .nil => false
  | .vDict _ => true
  | .vObj _ => true

/-! Python `repr` of the modelled values (string escaping inside `repr`
of a string is not modelled: the strings occurring in the claims contain
no quotes or escapes; the `str` of a plain object is address-dependent
in Python and modelled by a fixed token). -/
mutual
def pyRepr : PyVal → String
  | .vStr s => "\x27" ++ s ++ "\x27"
  | .vInt n => toString n
  | .vNone => "None"
  | .vList xs => "[" ++ pyReprList xs ++ "]"
  | .vDict es => "\x7b" ++ pyReprFields es ++ "\x7d"
  | .vObj _ => "<object>"

def pyReprList : PyList → String
  | .nil => ""
  | .cons v .nil => pyRepr v
  | .cons v t => pyRepr v ++ ", " ++ pyReprList t

def pyReprFields : PyFields → String
  | .nil => ""
  | .cons k v .nil => "\x27" ++ k ++ "\x27: " ++ pyRepr v
  | .cons k v t => "\x27" ++ k ++ "\x27: " ++ pyRepr v ++ ", " ++ pyReprFields t
end

/-- Python `str` of the modelled values. -/
def pyStr : PyVal → String
  | .vStr s => s
  | v => pyRepr v

/-- Python `hasattr` restricted to the attribute names `_extract_text`
probes (`choices`, `candidates`, `message`, `content`, `text`, `output`,
`get`): only `vObj` carries such attributes, except that every dict has
its bound method `get`. -/
def pyHasattr (v : PyVal) (a : String) : Bool :=
  match v with
  | .vObj attrs => (attrs.lookup a).isSome
  | .vDict _ => a = "get"
  | _ => false

/-- Attribute access; raises (`Except.error`) when the attribute is
missing, as `AttributeError` would. -/
def pyGetattr (v : PyVal) (a : String) : Except Unit PyVal :=
  match v with
  | .vObj attrs =>
    match attrs.lookup a with
    | some x => Except.ok x
    | none => Except.error ()
  | _ => Except.error ()

/-- A call `v.get(key)`: succeeds (with default `None`) when `v` is a
dict; anything else raises (`vObj` attributes are plain values in this
model, so a looked-up `get` attribute is not callable). -/
def pyCallGet (v : PyVal) (key : String) : Except Unit PyVal :=
  match v with
  | .vDict es => Except.ok ((es.lookup key).getD PyVal.vNone)
  | _ => Except.error ()

/-- Subscript `v[0]`: first element of a list, first character of a
string; everything else raises (`KeyError` for a dict with no key `0`,
`TypeError` otherwise). -/
def pyIndex0 (v : PyVal) : Except Unit PyVal :=
  match v with
  | .vList (.cons x _) => Except.ok x
  | .vStr s =>
    match s.data with
    | c :: _ => Except.ok (PyVal.vStr (String.mk [c]))
    | [] => Except.error ()
  | _ => Except.error ()

/-- Python `len(v)`; raises on values with no length. -/
def pyLen (v : PyVal) : Except Unit Nat :=
  match v with
  | .vList xs => Except.ok xs.length
  | .vStr s => Except.ok s.length
  | .vDict es => Except.ok es.length
  | _ => Except.error ()

/-- First `try` block of `_extract_text` (attribute-shaped chat
response): `response.choices[0]`, then `message.get("content") or
str(message)` for a dict-like message, else `message.content`, else
`first.text`.  `Except.ok none` means the block fell through without
returning; `Except.error` is an exception the caller swallows. -/
def tryBlock1 (response : PyVal) : Except Unit (Option PyVal) :=
  if pyHasattr response "choices" then do
    let chs ← pyGetattr response "choices"
    if pyTruthy chs then do
      let first ← pyIndex0 chs
      if pyHasattr first "message" then do
        let msg ← pyGetattr first "message"
        if pyHasattr msg "get" then do
          let c ← pyCallGet msg "content"
          pure (some (if pyTruthy c then c else PyVal.vStr (pyStr msg)))
        else if pyHasattr msg "content" then do
          let v ← pyGetattr msg "content"
          pure (some v)
        else if pyHasattr first "text" then do
          let v ← pyGetattr first "text"
          pure (some v)
        else pure none
      else if pyHasattr first "text" then do
        let v ← pyGetattr first "text"
        pure (some v)
      else pure none
    else pure none
  else pure none

/-- Second `try` block (attribute-shaped legacy completion):
`response.candidates[0]`, then `.output`, `.content`, `.text`. -/
def tryBlock2 (response : PyVal) : Except Unit (Option PyVal) :=
  if pyHasattr response "candidates" then do
    let cands ← pyGetattr response "candidates"
    if pyTruthy cands then do
      let cand ← pyIndex0 cands
      if pyHasattr cand "output" then do
        let v ← pyGetattr cand "output"
        pure (some v)
      else if pyHasattr cand "content" then do
        let v ← pyGetattr cand "content"
        pure (some v)
      else if pyHasattr cand "text" then do
        let v ← pyGetattr cand "text"
        pure (some v)
      else pure none
    else pure none
  else pure none

/-- The `choices` half of the third `try` block (dict-shaped response):
`msg = first.get("message") or first.get("delta") or first`, then
`msg.get("content") or msg.get("text") or str(msg)` when `msg` is a
dict; falls through (`ok none`) otherwise. -/
def tryChoicesDict (es : PyFields) : Except Unit (Option PyVal) :=
  let choices := (es.lookup "choices").getD PyVal.vNone
  if pyTruthy choices then do
    let n ← pyLen choices
    if n > 0 then do
      let first ← pyIndex0 choices
      match first with
      | PyVal.vDict fes =>
        let g := fun k => (fes.lookup k).getD PyVal.vNone
        let msg := if pyTruthy (g "message") then g "message"
                   else if pyTruthy (g "delta") then g "delta"
                   else first
        match msg with
        | PyVal.vDict mes =>
          let gm := fun k => (mes.lookup k).getD PyVal.vNone
          pure (some (if pyTruthy (gm "content") then gm "content"
                      else if pyTruthy (gm "text") then gm "text"
                      else PyVal.vStr (pyStr msg)))
        | _ => pure none
      | _ => pure none
    else pure none
  else pure none

/-- The `candidates` half of the third `try` block:
`cands = response.get("candidates") or response.get("outputs")`, then
`first.get("content") or first.get("output") or first.get("text") or
str(first)` when the first element is a dict. -/
def tryCandsDict (es : PyFields) : Except Unit (Option PyVal) :=
  let cand0 := (es.lookup "candidates").getD PyVal.vNone
  let cands := if pyTruthy cand0 then cand0 else (es.lookup "outputs").getD PyVal.vNone
  if pyTruthy cands then do
    let n ← pyLen cands
    if n > 0 then do
      let first ← pyIndex0 cands
      match first with
      | PyVal.vDict fes =>
        let g := fun k => (fes.lookup k).getD PyVal.vNone
        pure (some (if pyTruthy (g "content") then g "content"
                    else if pyTruthy (g "output") then g "output"
                    else if pyTruthy (g "text") then g "text"
                    else PyVal.vStr (pyStr first)))
      | _ => pure none
    else pure none
  else pure none

/-- Third `try` block of `_extract_text` (dict-shaped responses). -/
def tryBlock3 (response : PyVal) : Except Unit (Option PyVal) :=
  match response with
  | PyVal.vDict es => do
    let r ← tryChoicesDict es
    match r with
    | some v => pure (some v)
    | none => tryCandsDict es
  | _ => pure none

/-- `GeminiBot._extract_text`: the three probing blocks in order, each
with its exceptions swallowed (`Except.error` and fall-through both
proceed to the next block), then the `str(response)` fallback.  Total by
construction: the function itself never raises. -/
def extract_text (response : PyVal) : PyVal :=
  match tryBlock1 response with
  | Except.ok (some v) => v
  | _ =>
    match tryBlock2 response with
    | Except.ok (some v) => v
    | _ =>
      match tryBlock3 response with
      | Except.ok (some v) => v
      | _ => PyVal.vStr (pyStr response)

example : extract_text (pyDict []) = PyVal.vStr "\x7b\x7d" := by decide

example : extract_text (pyDict [("candidates", pyList [pyDict [("output", PyVal.vStr "ok")]])]) =
    PyVal.vStr "ok" := by decide

example : extract_text (pyDict [("candidates", pyList [pyDict [("content", PyVal.vInt 123)]])]) =
    PyVal.vInt 123 := by decide

example : extract_text (PyVal.vStr "plain") = PyVal.vStr "plain" := by decide

example : extract_text (pyDict [("choices", pyList [pyDict [("role", PyVal.vStr "r")]])]) =
    PyVal.vStr "\x7b\x27role\x27: \x27r\x27\x7d" := by decide

/-- Outcome of one underlying SDK call: the collaborator either returns
a raw response object or raises, with the exception rendered by its
message string. -/
inductive CallResult where
  | success (resp : PyVal)
  | failure (msg : String)
deriving DecidableEq

/-- Body of one iteration of the retry loop of `generate_response`
(attempt number `i`): the SDK call either raises, or returns `None`
(which the body turns into `RuntimeError("Empty response from model")`),
or yields a response from which text is extracted (`_extract_text`
itself never raises). -/
def attemptOnce (call : Nat → CallResult) (i : Nat) : Except String PyVal :=
  match call i with
  | CallResult.failure m => Except.error m
  | CallResult.success resp =>
    if resp = PyVal.vNone then Except.error "Empty response from model"
    else Except.ok (extract_text resp)

/-- The loop `for attempt in range(retry + 1)` of `generate_response`,
with `remaining` iterations left, current attempt index `i`, and the
last caught exception.  When the budget is exhausted it raises
`RuntimeError(f"Model call failed after retries: {last_exc}")`. -/
def genGo (call : Nat → CallResult) : Nat → Nat → Option String → Except String PyVal
  | _, 0, last => Except.error ("Model call failed after retries: " ++ last.getD "None")
  | i, (r+1), _ =>
    match attemptOnce call i with
    | Except.ok v => Except.ok v
    | Except.error m => genGo call (i+1) r (some m)

/-- `GeminiBot.generate_response(prompt, ..., retry)` with the SDK call
abstracted as the oracle `call` (the prompt, token and temperature
arguments only flow into the call and are absorbed into the oracle; the
backoff sleep has no observable effect). -/
def generate_response (call : Nat → CallResult) (retry : Nat) : Except String PyVal :=
  genGo call 0 (retry + 1) none

example :
    generate_response (fun n => if n < 2 then CallResult.failure "boom" else CallResult.success (PyVal.vStr "hi")) 2 =
    Except.ok (PyVal.vStr "hi") := rfl

example :
    generate_response (fun n => CallResult.failure ("e" ++ toString n)) 2 =
    Except.error "Model call failed after retries: e2" := rfl

/-- Whether a modelled Python value is a `str`. -/
def PyVal.isStr : PyVal → Bool
  | .vStr _ => true
  | _ => false

/-- Claim C1 (code bug): the claim (and the source's own `-> str`
annotation) say `_extract_text` always returns a string, but for the
dict-shaped response `{"candidates": [{"content": 123}]}` the code
returns the integer `123` itself (`first.get("content") or ...` returns
the truthy field value unconverted).  The never-raises part of the claim
does hold (`extract_text` is total and all probe exceptions are
swallowed), and the empty mapping `{}` is stringified to `"{}"`. -/
theorem claim_C1 :
    extract_text (pyDict [("candidates", pyList [pyDict [("content", PyVal.vInt 123)]])]) =
      PyVal.vInt 123
    ∧ PyVal.isStr
        (extract_text (pyDict [("candidates", pyList [pyDict [("content", PyVal.vInt 123)]])]))
        = false
    ∧ extract_text (pyDict []) = PyVal.vStr "\x7b\x7d" := by
  refine ⟨by decide, by decide, by decide⟩

/-- Exhausted retry loop: if every attempt from `i` through `i + r`
fails and the last of them fails with `mlast`, the loop raises
`RuntimeError` carrying `mlast`. -/
theorem genGo_all_fail (call : Nat → CallResult) :
    ∀ (r i : Nat) (last : Option String) (mlast : String),
      (∀ j, i ≤ j → j ≤ i + r → ∃ m, call j = CallResult.failure m) →
      call (i + r) = CallResult.failure mlast →
      genGo call i (r + 1) last =
        Except.error ("Model call failed after retries: " ++ mlast) := by
  intro r
  induction r with
  | zero =>
    intro i last mlast hall hlast
    have e : attemptOnce call i = Except.error mlast := by
      simp only [attemptOnce, show call i = CallResult.failure mlast by simpa using hlast]
    simp [genGo, e]
  | succ r ih =>
    intro i last mlast hall hlast
    obtain ⟨m, hm⟩ := hall i le_rfl (by omega)
    have e : attemptOnce call i = Except.error m := by simp [attemptOnce, hm]
    simp only [genGo, e]
    exact ih (i + 1) (some m) mlast
      (fun j hj1 hj2 => hall j (by omega) (by omega))
      (by rw [show i + 1 + r = i + (r + 1) from by omega]; exact hlast)

/-- Claim C2: with retry budget at least 2, two failing attempts
followed by a successful (non-`None`) third attempt yield the extracted
text of the successful response; and when every one of the `retry + 1`
attempts raises, the wrapper raises a `RuntimeError` carrying the
message of the last underlying exception. -/
theorem claim_C2 :
    (∀ (call : Nat → CallResult) (retry : Nat) (resp : PyVal) (m0 m1 : String),
        2 ≤ retry →
        call 0 = CallResult.failure m0 →
        call 1 = CallResult.failure m1 →
        call 2 = CallResult.success resp →
        resp ≠ PyVal.vNone →
        generate_response call retry = Except.ok (extract_text resp))
    ∧ (∀ (call : Nat → CallResult) (retry : Nat) (mlast : String),
        (∀ i, i ≤ retry → ∃ m, call i = CallResult.failure m) →
        call retry = CallResult.failure mlast →
        generate_response call retry =
          Except.error ("Model call failed after retries: " ++ mlast)) := by
  constructor
  · intro call retry resp m0 m1 h2 hc0 hc1 hc2 hne
    obtain ⟨k, rfl⟩ : ∃ k, retry = 2 + k := ⟨retry - 2, by omega⟩
    have e0 : attemptOnce call 0 = Except.error m0 := by simp [attemptOnce, hc0]
    have e1 : attemptOnce call 1 = Except.error m1 := by simp [attemptOnce, hc1]
    have e2 : attemptOnce call 2 = Except.ok (extract_text resp) := by
      simp [attemptOnce, hc2, hne]
    show genGo call 0 (2 + k + 1) none = Except.ok (extract_text resp)
    rw [show 2 + k + 1 = k.succ.succ.succ from by omega]
    simp only [genGo, e0, e1, e2]
  · intro call retry mlast hall hlast
    exact genGo_all_fail call retry 0 none mlast
      (fun j h0 hj => hall j (by omega)) (by simpa using hlast)

/-- Witness for C2 at concrete oracles. -/
theorem claim_C2_witness :
    generate_response
        (fun n => if n < 2 then CallResult.failure "boom"
                  else CallResult.success (PyVal.vStr "hi")) 5 =
      Except.ok (PyVal.vStr "hi")
    ∧ generate_response (fun n => CallResult.failure ("e" ++ toString n)) 2 =
      Except.error "Model call failed after retries: e2" := by
  constructor
  · exact claim_C2.1 _ 5 (PyVal.vStr "hi") "boom" "boom" (by omega) rfl rfl rfl (by decide)
  · exact claim_C2.2 _ 2 "e2" (fun i _ => ⟨"e" ++ toString i, rfl⟩) rfl

/-- Merging a continuation line into the last record of a nonempty row
list. -/
theorem appendToLast_concat (pre : List ChatRow) (lastRec : ChatRow) (line : String) :
    appendToLast (pre ++ [lastRec]) line =
      pre ++ [{ lastRec with content := lastRec.content ++ "\n" ++ line }] := by
  induction pre with
  | nil => rfl
  | cons r rs ih =>
    obtain ⟨hd, tl, h⟩ : ∃ hd tl, rs ++ [lastRec] = hd :: tl := by
      cases rs <;> exact ⟨_, _, rfl⟩
    show appendToLast (r :: (rs ++ [lastRec])) line = _
    rw [h]
    show r :: appendToLast (hd :: tl) line = _
    rw [← h, ih]
    rfl

/-- Claim C3: the parser's per-line behaviour — a stripped line that
matches the pattern appends a new record; a blank line changes nothing;
a non-matching non-blank line is dropped when no record exists and is
otherwise appended (with a newline separator) to the previous record's
content; and the concrete two-line input from the spec parses to one
record with merged content. -/
theorem claim_C3 :
    (∀ (rows : List ChatRow) (line : String) (r : ChatRow),
        matchChatLine (pyStripStr line) = some r →
        parseStep rows line = rows ++ [r])
    ∧ (∀ (rows : List ChatRow) (line : String),
        pyStripStr line = "" → parseStep rows line = rows)
    ∧ (∀ (line : String),
        pyStripStr line ≠ "" → matchChatLine (pyStripStr line) = none →
        parseStep [] line = [])
    ∧ (∀ (pre : List ChatRow) (lastRec : ChatRow) (line : String),
        pyStripStr line ≠ "" → matchChatLine (pyStripStr line) = none →
        parseStep (pre ++ [lastRec]) line =
          pre ++ [{ lastRec with content := lastRec.content ++ "\n" ++ pyStripStr line }])
    ∧ parse_raw_chat "[10:00] Alice: hi\nextra line" =
        [⟨"10:00", "Alice", "hi\nextra line"⟩] := by
  refine ⟨?_, ?_, ?_, ?_, by decide⟩
  · intro rows line r h
    by_cases he : pyStripStr line = ""
    · rw [he] at h
      rw [show matchChatLine "" = none from rfl] at h
      exact Option.noConfusion h
    · simp [parseStep, he, h]
  · intro rows line he
    simp [parseStep, he]
  · intro line he hm
    simp [parseStep, he, hm]
  · intro pre lastRec line he hm
    simp [parseStep, he, hm, appendToLast_concat]

/-- Witness for C3 at concrete lines. -/
theorem claim_C3_witness :
    parseStep [] "[10:00] Alice: hi" = [⟨"10:00", "Alice", "hi"⟩]
    ∧ parseStep [⟨"t", "s", "c"⟩] "   " = [⟨"t", "s", "c"⟩]
    ∧ parseStep [] "extra line" = []
    ∧ parseStep [⟨"10:00", "Alice", "hi"⟩] "extra line" =
        [⟨"10:00", "Alice", "hi\nextra line"⟩] := by
  refine ⟨claim_C3.1 [] _ _ (by decide), claim_C3.2.1 _ "   " (by decide),
    claim_C3.2.2.1 "extra line" (by decide) (by decide), ?_⟩
  exact claim_C3.2.2.2.1 [] ⟨"10:00", "Alice", "hi"⟩ "extra line" (by decide) (by decide)

/-- Claim C9: an input whose stripped lines are all blank or all fail
the row pattern — in particular the empty file and any entirely
malformed file — parses to the empty record list (no error). -/
theorem claim_C9 :
    ∀ text : String,
      (∀ l ∈ pyLines text, pyStripStr l = "" ∨ matchChatLine (pyStripStr l) = none) →
      parse_raw_chat text = [] := by
  have step : ∀ (ls : List String),
      (∀ l ∈ ls, pyStripStr l = "" ∨ matchChatLine (pyStripStr l) = none) →
      ls.foldl parseStep [] = [] := by
    intro ls h
    induction ls with
    | nil => rfl
    | cons l ls ih =>
      have h1 : parseStep [] l = [] := by
        rcases h l (by simp) with hb | hn
        · simp [parseStep, hb]
        · by_cases he : pyStripStr l = ""
          · simp [parseStep, he]
          · simp [parseStep, he, hn]
      show (l :: ls).foldl parseStep [] = []
      rw [List.foldl_cons, h1]
      exact ih (fun x hx => h x (by simp [hx]))
  intro text h
  exact step (pyLines text) h

/-- Witness for C9: a file of blank lines and an entirely malformed file. -/
theorem claim_C9_witness :
    parse_raw_chat "\n  \n\t\n" = [] ∧ parse_raw_chat "no pattern\nhere either" = [] :=
  ⟨claim_C9 _ (by decide), claim_C9 _ (by decide)⟩

/-- Claim C6: the prompt renders exactly the last (at most) six history
records, most recent first, as `sender: content` lines; the selected
window is a suffix of the history of length `min 6 (length history)`.
(The embedding is a pure function, so the history is not mutated by
construction.) -/
theorem claim_C6 :
    ∀ (mem : List ChatRow) (u p : String),
      build_prompt mem u p = pyJoin "\n"
        ((if p ≠ "" then ["Personality: " ++ p ++ "\n"] else [])
          ++ ["Conversation history (most recent first):"]
          ++ (mem.reverse.take 6).map (fun m => m.sender ++ ": " ++ m.content)
          ++ ["\nUser: " ++ u, "Assistant:"])
      ∧ mem.drop (mem.length - 6) <:+ mem
      ∧ (mem.drop (mem.length - 6)).length = min 6 mem.length := by
  intro mem u p
  have hrev : (mem.drop (mem.length - 6)).reverse = mem.reverse.take 6 := by
    rw [List.reverse_drop, List.take_eq_take]
    simp
    omega
  refine ⟨?_, List.drop_suffix _ _, by simp [List.length_drop]; omega⟩
  show pyJoin "\n" _ = _
  rw [hrev]

/-- Right-nested newline block: each line of the list rendered with a
leading newline separator. -/
def nlBlock : List String → String
  | [] => ""
  | l :: ls => "\n" ++ l ++ nlBlock ls

/-- Unfolding `pyJoin` on a list with at least two elements. -/
theorem pyJoin_cons (sep x y : String) (xs : List String) :
    pyJoin sep (x :: y :: xs) = x ++ sep ++ pyJoin sep (y :: xs) := rfl

/-- Merging two adjacent string literals under right-nested appends. -/
theorem str_fold (a b c : String) (h : a ++ b = c) (s : String) :
    a ++ (b ++ s) = c ++ s := by
  rw [← String.append_assoc, h]

/-- Closed form of a newline join of a header, a block of lines, and two
trailing elements. -/
theorem pyJoin_shape (hd : String) (hl : List String) (a b : String) :
    pyJoin "\n" (hd :: (hl ++ [a, b])) = hd ++ nlBlock hl ++ "\n" ++ a ++ "\n" ++ b := by
  induction hl generalizing hd with
  | nil => simp [pyJoin, nlBlock, pyJoin_cons, String.append_assoc]
  | cons l ls ih =>
    show pyJoin "\n" (hd :: l :: (ls ++ [a, b])) = _
    rw [pyJoin_cons, ih l]
    simp [nlBlock, String.append_assoc]

/-- Counterexample to claim C7 as stated: on the empty history with
user input `"u"` and persona `"p"`, the prompt built by the code is not
the plain newline-join of a Personality line, the header line, the
`User:` line and the `Assistant:` line — the code's Personality element
carries a trailing newline and its `User:` element a leading newline,
which insert blank lines the claimed form does not have. -/
theorem claim_C7_counterexample :
    build_prompt [] "u" "p" ≠ claimedPromptC7 [] "u" "p" := by decide

/-- Claim C7 as amended: the prompt is the Personality line followed by
a blank line (exactly when the persona description is non-empty), the
literal header line, the rendered history lines, a blank line, the
`User:` line, and the final literal line `Assistant:`; in particular the
prompt always ends with the line `Assistant:`. -/
theorem claim_C7 :
    ∀ (mem : List ChatRow) (u p : String),
      build_prompt mem u p =
        (if p ≠ "" then "Personality: " ++ p ++ "\n\n" else "")
          ++ "Conversation history (most recent first):"
          ++ nlBlock ((mem.drop (mem.length - 6)).reverse.map
              (fun m => m.sender ++ ": " ++ m.content))
          ++ "\n\nUser: " ++ u ++ "\nAssistant:"
      ∧ ('\n' :: "Assistant:".data) <:+ (build_prompt mem u p).data := by
  intro mem u p
  have h1 : build_prompt mem u p =
      (if p ≠ "" then "Personality: " ++ p ++ "\n\n" else "")
        ++ "Conversation history (most recent first):"
        ++ nlBlock ((mem.drop (mem.length - 6)).reverse.map
            (fun m => m.sender ++ ": " ++ m.content))
        ++ "\n\nUser: " ++ u ++ "\nAssistant:" := by
    show pyJoin "\n" _ = _
    by_cases hp : p = ""
    · simp only [hp, ne_eq, not_true_eq_false, if_false, List.nil_append,
        List.singleton_append, List.cons_append, List.append_assoc]
      rw [pyJoin_shape]
      simp only [String.append_assoc]
      rw [str_fold "\n" "\nUser: " "\n\nUser: " rfl]
      simp [String.append_assoc]
    · simp only [ne_eq, hp, not_false_eq_true, if_true, List.cons_append,
        List.nil_append, List.singleton_append]
      rw [pyJoin_cons, pyJoin_shape]
      simp only [String.append_assoc]
      rw [str_fold "\n" "\n" "\n\n" rfl, str_fold "\n" "\nUser: " "\n\nUser: " rfl]
      simp [String.append_assoc]
  refine ⟨h1, ?_⟩
  rw [h1]
  refine ⟨((if p ≠ "" then "Personality: " ++ p ++ "\n\n" else "")
      ++ "Conversation history (most recent first):"
      ++ nlBlock ((mem.drop (mem.length - 6)).reverse.map
          (fun m => m.sender ++ ": " ++ m.content))
      ++ "\n\nUser: " ++ u).data, ?_⟩
  simp [String.data_append, List.append_assoc]

/-- Claim C8: extraction from dict-shaped responses.  General: a
`candidates` list whose first element carries a non-empty `output`
string yields that string (the `content` key being absent).  Concrete
instances cover the spec's `{"candidates": [{"output": "ok"}]}` example,
the priority of `choices` over `candidates`, the `message`/`delta`/the
choice itself fallbacks and their `content`/`text`/stringify chain, the
`outputs` alias, and the `content` > `output` > `text` > stringify
priority among candidate fields. -/
theorem claim_C8 :
    (∀ s : String, s ≠ "" →
      extract_text (pyDict [("candidates", pyList [pyDict [("output", PyVal.vStr s)]])]) =
        PyVal.vStr s)
    ∧ extract_text (pyDict [("candidates", pyList [pyDict [("output", PyVal.vStr "ok")]])]) =
        PyVal.vStr "ok"
    ∧ extract_text (pyDict
        [("choices", pyList [pyDict [("message", pyDict [("content", PyVal.vStr "a")])]]),
         ("candidates", pyList [pyDict [("output", PyVal.vStr "b")]])]) = PyVal.vStr "a"
    ∧ extract_text (pyDict
        [("choices", pyList [pyDict [("delta", pyDict [("content", PyVal.vStr "d")])]])]) =
        PyVal.vStr "d"
    ∧ extract_text (pyDict [("choices", pyList [pyDict [("content", PyVal.vStr "c")]])]) =
        PyVal.vStr "c"
    ∧ extract_text (pyDict [("choices", pyList [pyDict [("text", PyVal.vStr "t")]])]) =
        PyVal.vStr "t"
    ∧ extract_text (pyDict [("choices", pyList [pyDict [("role", PyVal.vStr "r")]])]) =
        PyVal.vStr "\x7b\x27role\x27: \x27r\x27\x7d"
    ∧ extract_text (pyDict [("outputs", pyList [pyDict [("content", PyVal.vStr "z")]])]) =
        PyVal.vStr "z"
    ∧ extract_text (pyDict
        [("candidates", pyList [pyDict [("content", PyVal.vStr "cc"), ("output", PyVal.vStr "oo")]])]) =
        PyVal.vStr "cc"
    ∧ extract_text (pyDict [("candidates", pyList [pyDict [("foo", PyVal.vStr "f")]])]) =
        PyVal.vStr "\x7b\x27foo\x27: \x27f\x27\x7d" := by
  refine ⟨?_, by decide, by decide, by decide, by decide, by decide, by decide,
    by decide, by decide, by decide⟩
  intro s hs
  obtain ⟨data⟩ := s
  cases data with
  | nil => exact absurd rfl hs
  | cons c cs => rfl

/-- Witness for C8's general conjunct at `s = "ok"`. -/
theorem claim_C8_witness :
    extract_text (pyDict [("candidates", pyList [pyDict [("output", PyVal.vStr "ok")]])]) =
      PyVal.vStr "ok" :=
  claim_C8.1 "ok" (by decide)

/-- Unfolding of the redaction scan at a scan position (skip counter 0). -/
theorem redactAux_cons_zero (c : Char) (cs : List Char) (w : Bool) :
    redactAux (c :: cs) w 0 =
      if !w && phoneOk (c :: cs) then phoneTok ++ redactAux cs true 10
      else c :: redactAux cs (isWordChar c) 0 := rfl

/-- Consuming the skip counter drops the matched characters. -/
theorem redactAux_skip (k : Nat) : ∀ (l : List Char) (w : Bool),
    redactAux l w (k + 1) = redactAux (l.drop (k + 1)) true 0 := by
  induction k with
  | zero =>
    intro l w
    cases l with
    | nil => rfl
    | cons c cs => rfl
  | succ k ih =>
    intro l w
    cases l with
    | nil => simp [redactAux, List.drop_nil]
    | cons c cs =>
      show redactAux cs true (k + 1) = _
      rw [ih]
      rfl

/-- Digits are word characters. -/
theorem isWordChar_of_isDigit (c : Char) (h : c.isDigit = true) : isWordChar c = true := by
  simp [isWordChar, Char.isAlphanum, h]

/-- A phone-shaped block followed by a non-word character (or nothing)
satisfies the matcher's `1\d{10}\b` test. -/
theorem phoneOk_append (p post : List Char) (h11 : p.length = 11) (h1 : p.head? = some '1')
    (hd : ∀ c ∈ p, c.isDigit = true)
    (hb : post.head? = none ∨ ∃ y, post.head? = some y ∧ isWordChar y = false) :
    phoneOk (p ++ post) = true := by
  have ht : (p ++ post).take 11 = p := List.take_left' h11
  have hdr : (p ++ post).drop 11 = post := List.drop_left' h11
  have hh : (p ++ post).head? = some '1' := by
    cases p with
    | nil => simp at h11
    | cons c p' => simpa using h1
  have hall : p.all Char.isDigit = true := List.all_eq_true.mpr (fun c hc => hd c hc)
  have hopt : post.head?.all (fun d => !isWordChar d) = true := by
    rcases hb with hb | ⟨y, hy, hw⟩
    · simp [hb]
    · simp [hy, hw]
  unfold phoneOk
  rw [ht, hdr, hh, h11, hall, hopt]
  simp

/-- When at least twelve characters of context precede the appended
tail, the matcher's test at the head does not see the tail. -/
theorem phoneOk_append_long (pre rest : List Char) (h : 12 ≤ pre.length) :
    phoneOk (pre ++ rest) = phoneOk pre := by
  have h1 : (pre ++ rest).take 11 = pre.take 11 := by
    rw [List.take_append_eq_append_take, Nat.sub_eq_zero_of_le (by omega)]
    simp
  have h2 : (pre ++ rest).drop 11 = pre.drop 11 ++ rest := by
    rw [List.drop_append_eq_append_drop, Nat.sub_eq_zero_of_le (by omega)]
    simp
  have h3 : (pre ++ rest).head? = pre.head? := by
    cases pre with
    | nil => simp at h
    | cons c p' => simp
  have hne : pre.drop 11 ≠ [] := by
    intro he
    have := congrArg List.length he
    simp [List.length_drop] at this
    omega
  have h4 : (pre.drop 11 ++ rest).head? = (pre.drop 11).head? := by
    cases hE : pre.drop 11 with
    | nil => exact absurd hE hne
    | cons a t => simp
  have h5 : (pre.drop 11).head?.all (fun d => !isWordChar d) =
      (pre.drop 11).head?.all (fun d => !isWordChar d) := rfl
  unfold phoneOk
  rw [h1, h2, h3, h4]

/-- A list whose length is eleven is its own 11-window. -/
theorem take_11_of_len_11 (l : List Char) (h : l.length = 11) : l.take 11 = l := by
  rw [← h]
  exact List.take_length l

/-- The last element of a nonempty list is a member. -/
theorem getLast?_mem' (l : List Char) (x : Char) (h : l.getLast? = some x) : x ∈ l := by
  cases l with
  | nil => simp at h
  | cons a t => exact List.mem_of_mem_getLast? h

/-- A successful matcher test means the 11-window is all digits. -/
theorem phoneOk_take_all (cs : List Char) (h : phoneOk cs = true) :
    ∀ c ∈ cs.take 11, c.isDigit = true := by
  unfold phoneOk at h
  simp only [Bool.and_eq_true, List.all_eq_true] at h
  exact h.1.2

/-- A successful matcher test needs eleven characters. -/
theorem phoneOk_len (cs : List Char) (h : phoneOk cs = true) : 11 ≤ cs.length := by
  unfold phoneOk at h
  simp only [Bool.and_eq_true, decide_eq_true_eq] at h
  have hlen : (cs.take 11).length = 11 := h.1.1.1
  rw [List.length_take] at hlen
  omega

/-- The redaction scan distributes over a boundary-delimited phone
block: with a preceding context that ends in a non-word character (or is
empty, the flag being clear) and a following context that starts with a
non-word character (or is empty), the scan redacts the block and scans
the two contexts independently. -/
theorem redact_append_phone (p post : List Char)
    (h11 : p.length = 11) (h1 : p.head? = some '1') (hd : ∀ c ∈ p, c.isDigit = true)
    (hb : post.head? = none ∨ ∃ y, post.head? = some y ∧ isWordChar y = false) :
    ∀ (n : Nat) (pre : List Char) (w : Bool), pre.length ≤ n →
      ((pre = [] ∧ w = false) ∨ (∃ x, pre.getLast? = some x ∧ isWordChar x = false)) →
      redactAux (pre ++ (p ++ post)) w 0 =
        redactAux pre w 0 ++ phoneTok ++ redactAux post true 0 := by
  have base : redactAux (p ++ post) false 0 = phoneTok ++ redactAux post true 0 := by
    obtain ⟨c, p', rfl⟩ : ∃ c p', p = c :: p' := by
      cases p with
      | nil => simp at h11
      | cons c p' => exact ⟨c, p', rfl⟩
    have hok : phoneOk ((c :: p') ++ post) = true := phoneOk_append _ _ h11 h1 hd hb
    show redactAux (c :: (p' ++ post)) false 0 = _
    rw [redactAux_cons_zero]
    rw [if_pos (by simp only [List.cons_append] at hok; simp [hok])]
    rw [redactAux_skip 9]
    have hlen' : p'.length = 10 := by simpa using h11
    rw [List.drop_left' hlen']
  intro n
  induction n with
  | zero =>
    intro pre w hlen hbnd
    have hpre : pre = [] := List.eq_nil_of_length_eq_zero (Nat.le_zero.mp hlen)
    subst hpre
    have hw : w = false := by
      rcases hbnd with ⟨_, hw⟩ | ⟨x, hx, _⟩
      · exact hw
      · simp at hx
    subst hw
    simpa using base
  | succ n ih =>
    intro pre w hlen hbnd
    cases pre with
    | nil =>
      have hw : w = false := by
        rcases hbnd with ⟨_, hw⟩ | ⟨x, hx, _⟩
        · exact hw
        · simp at hx
      subst hw
      simpa using base
    | cons d pre' =>
      obtain ⟨x, hx, hxw⟩ : ∃ x, (d :: pre').getLast? = some x ∧ isWordChar x = false := by
        rcases hbnd with ⟨he, _⟩ | hx
        · exact absurd he (by simp)
        · exact hx
      by_cases hm : (!w && phoneOk ((d :: pre') ++ (p ++ post))) = true
      · -- the scan matches inside the context; the context must extend
        -- at least one character past the matched window
        have hok : phoneOk ((d :: pre') ++ (p ++ post)) = true := by
          rcases Bool.and_eq_true_iff.mp hm with ⟨_, h⟩
          exact h
        have hwf : (!w) = true := by
          rcases Bool.and_eq_true_iff.mp hm with ⟨h, _⟩
          exact h
        have hdig : ∀ c ∈ ((d :: pre') ++ (p ++ post)).take 11, c.isDigit = true := by
          have := phoneOk_take_all _ hok
          exact this
        have hlong : 12 ≤ (d :: pre').length := by
          by_contra hshort
          push_neg at hshort
          have hxm : x ∈ ((d :: pre') ++ (p ++ post)).take 11 := by
            rw [List.take_append_eq_append_take]
            exact List.mem_append_left _
              (by
                have hx' : x ∈ d :: pre' := getLast?_mem' _ _ hx
                have : (d :: pre').take 11 = d :: pre' := by
                  apply List.take_of_length_le
                  omega
                rw [this]
                exact hx')
          have := isWordChar_of_isDigit x (hdig x hxm)
          rw [this] at hxw
          exact Bool.noConfusion hxw
        have hokpre : phoneOk (d :: pre') = true := by
          rw [phoneOk_append_long _ _ hlong] at hok
          exact hok
        -- both scans consume the same 11-character window from the context
        have hdropne : (d :: pre').drop 11 ≠ [] := by
          intro he
          have hlen0 := congrArg List.length he
          rw [List.length_drop] at hlen0
          simp only [List.length_nil] at hlen0
          omega
        have hlast : ((d :: pre').drop 11).getLast? = some x := by
          have hsplit : (d :: pre').take 11 ++ (d :: pre').drop 11 = d :: pre' :=
            List.take_append_drop 11 (d :: pre')
          have hor : ((d :: pre').take 11 ++ (d :: pre').drop 11).getLast? =
              ((d :: pre').drop 11).getLast?.or ((d :: pre').take 11).getLast? :=
            List.getLast?_append
          rw [hsplit] at hor
          rw [hor] at hx
          cases hE : ((d :: pre').drop 11).getLast? with
          | none =>
            rw [List.getLast?_eq_none_iff] at hE
            exact absurd hE hdropne
          | some b =>
            rw [hE] at hx
            simpa using hx
        have hih := ih ((d :: pre').drop 11) true
          (by
            have hld : ((d :: pre').drop 11).length = (d :: pre').length - 11 :=
              List.length_drop 11 _
            have hl2 : (d :: pre').length ≤ n + 1 := hlen
            omega)
          (Or.inr ⟨x, hlast, hxw⟩)
        -- left side
        show redactAux (d :: (pre' ++ (p ++ post))) w 0 = _
        rw [redactAux_cons_zero, if_pos (by simpa using hm), redactAux_skip 9]
        have hstep : (pre' ++ (p ++ post)).drop 10 = (d :: pre').drop 11 ++ (p ++ post) := by
          rw [List.drop_append_eq_append_drop, Nat.sub_eq_zero_of_le (by simp at hlong; omega)]
          simp
        rw [hstep, hih]
        -- right side
        have hmr : (!w && phoneOk (d :: pre')) = true := by
          rw [hokpre]
          simpa using hwf
        rw [redactAux_cons_zero, if_pos (by
          cases pre' with
          | nil => simp at hlong
          | cons e t => simpa using hmr)]
        rw [redactAux_skip 9]
        simp [List.append_assoc]
      · -- no match at this position in either scan: copy one character
        have hmr : ¬((!w && phoneOk (d :: pre')) = true) := by
          intro hyes
          rcases Bool.and_eq_true_iff.mp hyes with ⟨hwf, hokpre⟩
          have hlen11 : 11 ≤ (d :: pre').length := by
            have := phoneOk_len _ hokpre
            exact this
          have h12 : 12 ≤ (d :: pre').length := by
            rcases Nat.lt_or_ge (d :: pre').length 12 with hlt | hge
            · exfalso
              have hlen_eq : (d :: pre').length = 11 := by omega
              have htake : (d :: pre').take 11 = d :: pre' := take_11_of_len_11 _ hlen_eq
              have hxm : x ∈ (d :: pre').take 11 := by
                rw [htake]
                exact getLast?_mem' _ _ hx
              have := isWordChar_of_isDigit x (phoneOk_take_all _ hokpre x hxm)
              rw [this] at hxw
              exact Bool.noConfusion hxw
            · exact hge
          apply hm
          rw [hwf]
          rw [phoneOk_append_long _ (p ++ post) h12]
          simpa using hokpre
        show redactAux (d :: (pre' ++ (p ++ post))) w 0 = _
        rw [redactAux_cons_zero, if_neg (by simpa using hm)]
        rw [redactAux_cons_zero d pre' w, if_neg hmr]
        have hbnd' : (pre' = [] ∧ isWordChar d = false) ∨
            (∃ y, pre'.getLast? = some y ∧ isWordChar y = false) := by
          cases pre' with
          | nil =>
            left
            refine ⟨rfl, ?_⟩
            have hxd : d = x := by simpa using hx
            rw [hxd]
            exact hxw
          | cons e t =>
            right
            refine ⟨x, ?_, hxw⟩
            simpa using hx
        rw [ih pre' (isWordChar d) (by simpa using Nat.le_of_succ_le_succ hlen) hbnd']
        simp [List.append_assoc]

/-- An occurrence of eleven consecutive digits starting with `'1'`
anywhere in the character list (the claim's naive reading, with no word
boundaries). -/
def naiveAt (cs : List Char) : Bool :=
  (cs.take 11).length = 11 && cs.head? = some '1' && (cs.take 11).all Char.isDigit

/-- Scan for a naive 11-digit occurrence at any position. -/
def hasNaivePhone : List Char → Bool
  | [] => false
  | c :: cs => naiveAt (c :: cs) || hasNaivePhone cs

/-- Counterexample to claim C4 as stated: the content
`"123456789012"` (twelve digits) contains an 11-digit sequence
beginning with `1`, yet the cleaning pass replaces nothing — the
regex `\b1\d{10}\b` requires a word boundary after the eleventh digit
and the twelfth digit denies it. -/
theorem claim_C4_counterexample :
    clean_messages [⟨"t", "s", "123456789012"⟩] = [⟨"t", "s", "123456789012"⟩]
    ∧ hasNaivePhone "123456789012".data = true := by
  refine ⟨by decide, by decide⟩

/-- Claim C4 as amended: every 11-digit sequence beginning with `1`
that is *delimited by word boundaries* — preceded by the start of the
content or a non-word character, and followed by the end of the content
or a non-word character — is replaced by the `[PHONE]` token, the
redaction scan treating the surrounding context independently.  The
concrete conjunct shows the redaction inside the full cleaning pass. -/
theorem claim_C4 :
    (∀ (pre p post : List Char),
      p.length = 11 → p.head? = some '1' → (∀ c ∈ p, c.isDigit = true) →
      (pre = [] ∨ ∃ x, pre.getLast? = some x ∧ isWordChar x = false) →
      (post = [] ∨ ∃ y, post.head? = some y ∧ isWordChar y = false) →
      redactAux (pre ++ (p ++ post)) false 0 =
        redactAux pre false 0 ++ phoneTok ++ redactAux post true 0)
    ∧ clean_messages [⟨"t", "s", "call 12345678901 now"⟩] =
        [⟨"t", "s", "call [PHONE] now"⟩] := by
  constructor
  · intro pre p post h11 h1 hd hpre hpost
    have hb : post.head? = none ∨ ∃ y, post.head? = some y ∧ isWordChar y = false := by
      rcases hpost with rfl | hy
      · exact Or.inl rfl
      · exact Or.inr hy
    have hbnd : (pre = [] ∧ false = false) ∨
        (∃ x, pre.getLast? = some x ∧ isWordChar x = false) := by
      rcases hpre with rfl | hx
      · exact Or.inl ⟨rfl, rfl⟩
      · exact Or.inr hx
    exact redact_append_phone p post h11 h1 hd hb pre.length pre false le_rfl hbnd
  · decide

/-- Witness for C4's general conjunct at a concrete content split. -/
theorem claim_C4_witness :
    redactAux ("call ".data ++ ("12345678901".data ++ " now".data)) false 0 =
      redactAux "call ".data false 0 ++ phoneTok ++ redactAux " now".data true 0 :=
  claim_C4.1 "call ".data "12345678901".data " now".data (by decide) (by decide)
    (by decide) (by decide) (by decide)

/-- No two adjacent characters are both whitespace. -/
def noAdjSpace : List Char → Bool
  | [] => true
  | [_] => true
  | a :: b :: t => !(isSpace a && isSpace b) && noAdjSpace (b :: t)

/-- Cons characterization of `noAdjSpace`. -/
theorem noAdjSpace_cons (a : Char) (l : List Char) :
    noAdjSpace (a :: l) = true ↔
      noAdjSpace l = true ∧ ∀ b, l.head? = some b → (isSpace a && isSpace b) = false := by
  cases l with
  | nil => simp [noAdjSpace]
  | cons b t =>
    show (!(isSpace a && isSpace b) && noAdjSpace (b :: t)) = true ↔ _
    simp only [Bool.and_eq_true, Bool.not_eq_true']
    constructor
    · rintro ⟨h1, h2⟩
      refine ⟨h2, fun c hc => ?_⟩
      have hbc : b = c := by simpa using hc
      rw [← hbc]
      exact h1
    · rintro ⟨h1, h2⟩
      exact ⟨h2 b rfl, h1⟩

/-- Whitespace characters are not word characters. -/
theorem not_word_of_space (c : Char) (h : isSpace c = true) : isWordChar c = false := by
  simp only [isSpace, Bool.or_eq_true, decide_eq_true_eq] at h
  rcases h with ((((h | h) | h) | h) | h) | h <;> subst h <;> decide

/-- Digits are not whitespace. -/
theorem not_space_of_digit (c : Char) (h : c.isDigit = true) : isSpace c = false := by
  by_contra hs
  rw [Bool.not_eq_false] at hs
  have hw := not_word_of_space c hs
  rw [isWordChar_of_isDigit c h] at hw
  exact Bool.noConfusion hw

/-- Every whitespace character the collapse scan emits is a plain space. -/
theorem collapse_space_blank : ∀ (l : List Char) (w : Bool) (c : Char),
    c ∈ collapseAux l w → isSpace c = true → c = ' ' := by
  intro l
  induction l with
  | nil => intro w c hc; simp [collapseAux] at hc
  | cons d ds ih =>
    intro w c hc hs
    by_cases hd : isSpace d = true
    · cases w with
      | true =>
        rw [show collapseAux (d :: ds) true = collapseAux ds true by simp [collapseAux, hd]] at hc
        exact ih true c hc hs
      | false =>
        rw [show collapseAux (d :: ds) false = ' ' :: collapseAux ds true by
          simp [collapseAux, hd]] at hc
        rcases List.mem_cons.mp hc with rfl | hc
        · rfl
        · exact ih true c hc hs
    · rw [show collapseAux (d :: ds) w = d :: collapseAux ds false by
        simp [collapseAux, hd]] at hc
      rcases List.mem_cons.mp hc with rfl | hc
      · rw [hs] at hd
        exact absurd rfl hd
      · exact ih false c hc hs

/-- The collapse scan never emits two adjacent whitespace characters,
and in mid-run state its output starts with a non-space. -/
theorem collapse_noAdj : ∀ (l : List Char) (w : Bool),
    noAdjSpace (collapseAux l w) = true ∧
      (w = true → ∀ c, (collapseAux l w).head? = some c → isSpace c = false) := by
  intro l
  induction l with
  | nil => intro w; exact ⟨rfl, fun _ c hc => by simp [collapseAux] at hc⟩
  | cons d ds ih =>
    intro w
    by_cases hd : isSpace d = true
    · cases w with
      | true =>
        rw [show collapseAux (d :: ds) true = collapseAux ds true by simp [collapseAux, hd]]
        exact ⟨(ih true).1, fun _ => (ih true).2 rfl⟩
      | false =>
        rw [show collapseAux (d :: ds) false = ' ' :: collapseAux ds true by
          simp [collapseAux, hd]]
        constructor
        · rw [noAdjSpace_cons]
          refine ⟨(ih true).1, fun b hb => ?_⟩
          rw [(ih true).2 rfl b hb]
          simp
        · intro h; exact absurd h (by simp)
    · rw [show collapseAux (d :: ds) w = d :: collapseAux ds false by simp [collapseAux, hd]]
      have hd2 : isSpace d = false := by simpa using hd
      constructor
      · rw [noAdjSpace_cons]
        refine ⟨(ih false).1, fun b _ => ?_⟩
        simp [hd2]
      · intro _ c hc
        have hdc : d = c := by simpa using hc
        rw [← hdc]
        exact hd2

/-- `noAdjSpace` restricts to both halves of an append. -/
theorem noAdjSpace_append (a b : List Char) (h : noAdjSpace (a ++ b) = true) :
    noAdjSpace a = true ∧ noAdjSpace b = true := by
  induction a with
  | nil => exact ⟨rfl, h⟩
  | cons x a' ih =>
    rw [List.cons_append, noAdjSpace_cons] at h
    obtain ⟨h1, h2⟩ := h
    obtain ⟨ha', hb⟩ := ih h1
    refine ⟨?_, hb⟩
    rw [noAdjSpace_cons]
    refine ⟨ha', fun c hc => ?_⟩
    apply h2
    cases a' with
    | nil => simp at hc
    | cons z t => simpa using hc

/-- The head surviving a left strip is not whitespace. -/
theorem trimL_head (l : List Char) (c : Char) (h : (trimL l).head? = some c) :
    isSpace c = false := by
  have := List.head?_dropWhile_not isSpace l
  unfold trimL at h
  rw [h] at this
  simpa using this

/-- Decomposition of a left strip. -/
theorem trimL_decomp (l : List Char) :
    ∃ sp, l = sp ++ trimL l ∧ ∀ c ∈ sp, isSpace c = true :=
  ⟨l.takeWhile isSpace, (List.takeWhile_append_dropWhile isSpace l).symm,
    fun _ hc => List.mem_takeWhile_imp hc⟩

/-- Decomposition of a right strip. -/
theorem trimR_decomp (l : List Char) :
    ∃ sp, l = trimR l ++ sp ∧ ∀ c ∈ sp, isSpace c = true := by
  refine ⟨(l.reverse.takeWhile isSpace).reverse, ?_, ?_⟩
  · conv_lhs => rw [← List.reverse_reverse l]
    conv_lhs => rw [← List.takeWhile_append_dropWhile isSpace l.reverse]
    rw [List.reverse_append]
    rfl
  · intro c hc
    rw [List.mem_reverse] at hc
    exact List.mem_takeWhile_imp hc

/-- The last element surviving a right strip is not whitespace. -/
theorem trimR_getLast (l : List Char) (c : Char) (h : (trimR l).getLast? = some c) :
    isSpace c = false := by
  unfold trimR at h
  rw [List.getLast?_reverse] at h
  exact trimL_head l.reverse c h

/-- The head of a right strip is the head of the original list. -/
theorem trimR_head (l : List Char) (c : Char) (h : (trimR l).head? = some c) :
    l.head? = some c := by
  obtain ⟨sp, hd, _⟩ := trimR_decomp l
  rw [hd]
  cases hE : trimR l with
  | nil => rw [hE] at h; simp at h
  | cons x t =>
    rw [hE] at h
    have hxc : x = c := by simpa using h
    rw [← hxc]
    simp

/-- Claim C10: cleaned records have non-empty content with no newline,
no two adjacent whitespace characters, and no leading or trailing
whitespace. -/
theorem claim_C10 :
    ∀ (rows : List ChatRow) (r : ChatRow), r ∈ clean_messages rows →
      r.content ≠ ""
      ∧ (∀ c ∈ r.content.data, c ≠ '\n')
      ∧ noAdjSpace r.content.data = true
      ∧ (∀ c, r.content.data.head? = some c → isSpace c = false)
      ∧ (∀ c, r.content.data.getLast? = some c → isSpace c = false) := by
  intro rows r hr
  unfold clean_messages at hr
  rw [List.mem_filterMap] at hr
  obtain ⟨a, _, ha⟩ := hr
  by_cases hc : cleanContent a.content = ""
  · rw [if_pos hc] at ha
    exact Option.noConfusion ha
  · rw [if_neg hc] at ha
    rw [Option.some_inj] at ha
    have hcontent : r.content = cleanContent a.content := by rw [← ha]
    have hdata : r.content.data =
        trimR (trimL (collapseAux (redactAux a.content.data false 0) false)) := by
      rw [hcontent]; rfl
    set O := collapseAux (redactAux a.content.data false 0) false with hO
    have hmemO : ∀ c ∈ r.content.data, c ∈ O := by
      intro c hcm
      rw [hdata] at hcm
      obtain ⟨sp2, hd2, _⟩ := trimR_decomp (trimL O)
      have h1 : c ∈ trimL O := by
        rw [hd2]
        exact List.mem_append_left _ hcm
      obtain ⟨sp1, hd1, _⟩ := trimL_decomp O
      rw [hd1]
      exact List.mem_append_right _ h1
    refine ⟨by rw [hcontent]; exact hc, ?_, ?_, ?_, ?_⟩
    · intro c hcm heq
      subst heq
      have hblank := collapse_space_blank _ false _ (hmemO _ hcm) (by decide)
      exact absurd hblank (by decide)
    · have hOadj : noAdjSpace O = true := (collapse_noAdj _ false).1
      obtain ⟨sp1, hd1, _⟩ := trimL_decomp O
      have h1 : noAdjSpace (trimL O) = true := by
        rw [hd1] at hOadj
        exact (noAdjSpace_append _ _ hOadj).2
      obtain ⟨sp2, hd2, _⟩ := trimR_decomp (trimL O)
      rw [hd2] at h1
      rw [hdata]
      exact (noAdjSpace_append _ _ h1).1
    · intro c hhead
      rw [hdata] at hhead
      exact trimL_head O c (trimR_head _ c hhead)
    · intro c hlast
      rw [hdata] at hlast
      exact trimR_getLast _ c hlast

/-- Witness for C10 at a concrete cleaned row. -/
theorem claim_C10_witness :
    ("a b" : String) ≠ ""
    ∧ (∀ c ∈ ("a b" : String).data, c ≠ '\n')
    ∧ noAdjSpace ("a b" : String).data = true
    ∧ (∀ c, ("a b" : String).data.head? = some c → isSpace c = false)
    ∧ (∀ c, ("a b" : String).data.getLast? = some c → isSpace c = false) :=
  claim_C10 [⟨"t", "A", " a  b "⟩] ⟨"t", "A", "a b"⟩ (by decide)

/-- No decomposition of `l` exhibits an 11-digit block starting with
`'1'` that is delimited by word boundaries, the boundary before the
start of `l` being determined by the virtual scan flag `w`. -/
def NPfrom (w : Bool) (l : List Char) : Prop :=
  ∀ a p b, l = a ++ (p ++ b) →
    p.length = 11 → p.head? = some '1' → (∀ c ∈ p, c.isDigit = true) →
    ((a = [] ∧ w = false) ∨ (∃ x, a.getLast? = some x ∧ isWordChar x = false)) →
    (b = [] ∨ ∃ y, b.head? = some y ∧ isWordChar y = false) →
    False

/-- The empty list has no phone occurrence. -/
theorem NPfrom_nil (w : Bool) : NPfrom w [] := by
  intro a p b heq h11 _ _ _ _
  have h0 := heq.symm
  rw [List.append_eq_nil] at h0
  obtain ⟨_, h2⟩ := h0
  rw [List.append_eq_nil] at h2
  rw [h2.1] at h11
  simp at h11

/-- Having no phone is preserved when one character is consumed, the
flag becoming that character's wordness. -/
theorem NPfrom_cons (w : Bool) (c : Char) (cs : List Char) (h : NPfrom w (c :: cs)) :
    NPfrom (isWordChar c) cs := by
  intro a p b heq h11 h1 hd hba hbb
  apply h (c :: a) p b (by rw [heq]; rfl) h11 h1 hd ?_ hbb
  rcases hba with ⟨rfl, hw⟩ | ⟨x, hx, hxw⟩
  · exact Or.inr ⟨c, by simp, hw⟩
  · have hane : a ≠ [] := by
      intro h0
      rw [h0] at hx
      simp at hx
    refine Or.inr ⟨x, ?_, hxw⟩
    cases a with
    | nil => exact absurd rfl hane
    | cons e t =>
      rw [List.getLast?_cons_cons]
      exact hx

/-- A matcher success at the head of a list exhibits a boundary-
delimited phone decomposition (with clear scan flag). -/
theorem phoneOk_gives_violation (c : Char) (cs : List Char)
    (hok : phoneOk (c :: cs) = true) (w : Bool) (hw : w = false)
    (h : NPfrom w (c :: cs)) : False := by
  unfold phoneOk at hok
  simp only [Bool.and_eq_true, decide_eq_true_eq, List.all_eq_true] at hok
  obtain ⟨⟨⟨hlen, hhead⟩, hall⟩, hopt⟩ := hok
  apply h [] ((c :: cs).take 11) ((c :: cs).drop 11)
    (by rw [List.nil_append, List.take_append_drop]) hlen ?_ ?_ (Or.inl ⟨rfl, hw⟩) ?_
  · show (c :: cs.take 10).head? = some '1'
    simpa using hhead
  · exact fun x hx => hall x hx
  · cases hE : ((c :: cs).drop 11).head? with
    | none =>
      left
      rw [List.head?_eq_none_iff] at hE
      exact hE
    | some y =>
      right
      refine ⟨y, rfl, ?_⟩
      rw [hE] at hopt
      simpa using hopt

/-- On a list with no boundary-delimited phone, the redaction scan is
the identity. -/
theorem redact_fix : ∀ (l : List Char) (w : Bool), NPfrom w l → redactAux l w 0 = l := by
  intro l
  induction l with
  | nil => intro w _; rfl
  | cons c cs ih =>
    intro w h
    have hm : (!w && phoneOk (c :: cs)) = false := by
      by_contra hyes
      rw [Bool.not_eq_false] at hyes
      obtain ⟨hwf, hok⟩ := Bool.and_eq_true_iff.mp hyes
      have hw : w = false := by simpa using hwf
      exact phoneOk_gives_violation c cs hok w hw h
    rw [redactAux_cons_zero, if_neg (by simp [hm])]
    rw [ih (isWordChar c) (NPfrom_cons w c cs h)]

/-- A digit block at the front of the scan's output is copied from the
front of its input. -/
theorem redact_digit_prefix : ∀ (d : List Char), d ≠ [] → (∀ c ∈ d, c.isDigit = true) →
    ∀ (l : List Char) (w : Bool) (e : List Char),
      redactAux l w 0 = d ++ e →
      ∃ l2, l = d ++ l2 ∧ e = redactAux l2 true 0 := by
  intro d
  induction d with
  | nil => intro h; exact absurd rfl h
  | cons x d' ih =>
    intro _ hdig l w e heq
    cases l with
    | nil => exact absurd heq (by simp [redactAux])
    | cons c cs =>
      rw [redactAux_cons_zero] at heq
      by_cases hm : (!w && phoneOk (c :: cs)) = true
      · rw [if_pos hm] at heq
        have hx : '[' = x := by
          have := congrArg List.head? heq
          simpa [phoneTok] using this
        have hxd : x.isDigit = true := hdig x (by simp)
        rw [← hx] at hxd
        exact absurd hxd (by decide)
      · rw [if_neg hm] at heq
        have hcx : c = x := by
          have := congrArg List.head? heq
          simpa using this
        have hcw : isWordChar c = true :=
          isWordChar_of_isDigit c (by rw [hcx]; exact hdig x (by simp))
        have htail : redactAux cs (isWordChar c) 0 = d' ++ e := by
          have := congrArg List.tail heq
          simpa using this
        cases d' with
        | nil =>
          refine ⟨cs, by rw [hcx]; rfl, ?_⟩
          rw [List.nil_append] at htail
          rw [← htail, hcw]
        | cons z t =>
          obtain ⟨l2, hl2, he⟩ := ih (by simp) (fun q hq => hdig q (by simp [hq]))
            cs (isWordChar c) e htail
          exact ⟨l2, by rw [hcx, hl2]; rfl, he⟩

/-- With the scan flag set, the first output character is the first
input character. -/
theorem redact_head_true (l : List Char) : (redactAux l true 0).head? = l.head? := by
  cases l with
  | nil => rfl
  | cons c cs => rfl

/-- The scan output (at skip 0) is empty iff the input is. -/
theorem redact_zero_nil_iff (l : List Char) (w : Bool) : redactAux l w 0 = [] ↔ l = [] := by
  cases l with
  | nil => simp [redactAux]
  | cons c cs =>
    rw [redactAux_cons_zero]
    by_cases hm : (!w && phoneOk (c :: cs)) = true
    · rw [if_pos hm]
      simp [phoneTok]
    · rw [if_neg hm]
      simp

/-- Membership from `head?`. -/
theorem mem_of_head? (l : List Char) (c : Char) (h : l.head? = some c) : c ∈ l := by
  cases l with
  | nil => simp at h
  | cons x t =>
    have hxc : x = c := by simpa using h
    rw [← hxc]
    simp

/-- The redaction scan's output contains no boundary-delimited phone:
every such block in the input was replaced, and the replacement token
contains no digit. -/
theorem redact_NP : ∀ (n : Nat) (l : List Char) (w : Bool), l.length ≤ n →
    NPfrom w (redactAux l w 0) := by
  intro n
  induction n with
  | zero =>
    intro l w hlen
    have h0 : l = [] := List.eq_nil_of_length_eq_zero (Nat.le_zero.mp hlen)
    subst h0
    exact NPfrom_nil w
  | succ n ih =>
    intro l w hlen
    cases l with
    | nil => exact NPfrom_nil w
    | cons c cs =>
      by_cases hm : (!w && phoneOk (c :: cs)) = true
      · obtain ⟨hwf, hok⟩ := Bool.and_eq_true_iff.mp hm
        have hout : redactAux (c :: cs) w 0 =
            phoneTok ++ redactAux ((c :: cs).drop 11) true 0 := by
          rw [redactAux_cons_zero, if_pos hm, redactAux_skip 9]
          rfl
        rw [hout]
        have hrest_b : ((c :: cs).drop 11).head? = none ∨
            ∃ y, ((c :: cs).drop 11).head? = some y ∧ isWordChar y = false := by
          unfold phoneOk at hok
          simp only [Bool.and_eq_true] at hok
          have hopt := hok.2
          cases hE : ((c :: cs).drop 11).head? with
          | none => exact Or.inl rfl
          | some y =>
            right
            refine ⟨y, rfl, ?_⟩
            rw [hE] at hopt
            simpa using hopt
        have ihtail : NPfrom true (redactAux ((c :: cs).drop 11) true 0) := by
          apply ih ((c :: cs).drop 11) true
          have h1 := List.length_drop 11 (c :: cs)
          have h2 : (c :: cs).length ≤ n + 1 := hlen
          omega
        intro a p b heq h11 h1 hd hba hbb
        have hpne : p ≠ [] := by
          intro h0
          rw [h0] at h11
          simp at h11
        have hpb_head : (p ++ b).head? = some '1' := by
          cases p with
          | nil => exact absurd rfl hpne
          | cons q t => simpa using h1
        by_cases hlen7 : a.length < 7
        · have hdrops : (phoneTok ++ redactAux ((c :: cs).drop 11) true 0).drop a.length =
              p ++ b := by
            rw [heq, List.drop_left' rfl]
          rw [List.drop_append_eq_append_drop, Nat.sub_eq_zero_of_le (by
            show a.length ≤ phoneTok.length
            simp [phoneTok]
            omega), List.drop_zero] at hdrops
          have hne : phoneTok.drop a.length ≠ [] := by
            intro h0
            have := congrArg List.length h0
            rw [List.length_drop] at this
            simp [phoneTok] at this
            omega
          have hhd : (phoneTok.drop a.length ++ redactAux ((c :: cs).drop 11) true 0).head? =
              (phoneTok.drop a.length).head? := by
            cases hE : phoneTok.drop a.length with
            | nil => exact absurd hE hne
            | cons u v => simp
          rw [hdrops] at hhd
          rw [hpb_head] at hhd
          have hmem : '1' ∈ phoneTok :=
            List.mem_of_mem_drop (mem_of_head? _ _ hhd.symm)
          exact absurd hmem (by decide)
        · push_neg at hlen7
          have htake : a.take 7 = phoneTok := by
            have h2 := congrArg (List.take 7) heq
            rw [List.take_left' (show phoneTok.length = 7 from rfl)] at h2
            rw [List.take_append_eq_append_take, Nat.sub_eq_zero_of_le hlen7,
              List.take_zero, List.append_nil] at h2
            exact h2.symm
          have hsplit_a : a = phoneTok ++ a.drop 7 := by
            conv_lhs => rw [← List.take_append_drop 7 a]
            rw [htake]
          have htail_eq : redactAux ((c :: cs).drop 11) true 0 = a.drop 7 ++ (p ++ b) := by
            have h2 := congrArg (List.drop 7) heq
            rw [List.drop_left' (show phoneTok.length = 7 from rfl)] at h2
            rw [List.drop_append_eq_append_drop, Nat.sub_eq_zero_of_le hlen7,
              List.drop_zero] at h2
            exact h2
          by_cases ha' : a.drop 7 = []
          · rw [ha', List.nil_append] at htail_eq
            have hth : ((c :: cs).drop 11).head? = some '1' := by
              rw [← redact_head_true ((c :: cs).drop 11), htail_eq]
              exact hpb_head
            rcases hrest_b with hn | ⟨y, hy, hyw⟩
            · rw [hn] at hth
              exact Option.noConfusion hth
            · rw [hy] at hth
              have : y = '1' := by simpa using hth
              rw [this] at hyw
              exact absurd hyw (by decide)
          · apply ihtail (a.drop 7) p b htail_eq h11 h1 hd ?_ hbb
            rcases hba with ⟨rfl, _⟩ | ⟨x, hx, hxw⟩
            · simp at hlen7
            · refine Or.inr ⟨x, ?_, hxw⟩
              rw [hsplit_a, List.getLast?_append] at hx
              cases hE : (a.drop 7).getLast? with
              | none =>
                rw [List.getLast?_eq_none_iff] at hE
                exact absurd hE ha'
              | some z =>
                rw [hE] at hx
                have hzx : z = x := by simpa using hx
                rw [hzx]
      · have hout : redactAux (c :: cs) w 0 = c :: redactAux cs (isWordChar c) 0 := by
          rw [redactAux_cons_zero, if_neg hm]
        rw [hout]
        have ihtail : NPfrom (isWordChar c) (redactAux cs (isWordChar c) 0) := by
          apply ih cs (isWordChar c)
          simpa using Nat.le_of_succ_le_succ hlen
        intro a p b heq h11 h1 hd hba hbb
        cases a with
        | nil =>
          have hw : w = false := by
            rcases hba with ⟨_, hw⟩ | ⟨x, hx, _⟩
            · exact hw
            · simp at hx
          rw [List.nil_append] at heq
          obtain ⟨c1, p', rfl⟩ : ∃ c1 p', p = c1 :: p' := by
            cases p with
            | nil => simp at h11
            | cons c1 p' => exact ⟨c1, p', rfl⟩
          rw [List.cons_append, List.cons.injEq] at heq
          obtain ⟨hc1, htl⟩ := heq
          have hp'len : p'.length = 10 := by simpa using h11
          have hp'ne : p' ≠ [] := by
            intro h0
            rw [h0] at hp'len
            simp at hp'len
          obtain ⟨cs2, hcs2, hb⟩ := redact_digit_prefix p' hp'ne
            (fun q hq => hd q (by simp [hq])) cs (isWordChar c) b htl
          have hbound : cs2.head? = none ∨
              ∃ y, cs2.head? = some y ∧ isWordChar y = false := by
            rcases hbb with rfl | ⟨y, hy, hyw⟩
            · left
              have h0 : cs2 = [] := by
                rw [← redact_zero_nil_iff cs2 true]
                exact hb.symm
              rw [h0]
              rfl
            · right
              refine ⟨y, ?_, hyw⟩
              rw [hb, redact_head_true] at hy
              exact hy
          apply hm
          rw [hw]
          simp only [Bool.not_false, Bool.true_and]
          rw [show c :: cs = (c1 :: p') ++ cs2 by rw [hcs2, hc1]; rfl]
          exact phoneOk_append _ _ h11 h1 hd hbound
        | cons e a' =>
          rw [List.cons_append, List.cons.injEq] at heq
          obtain ⟨hce, htl⟩ := heq
          apply ihtail a' p b htl h11 h1 hd ?_ hbb
          rcases hba with ⟨he0, _⟩ | ⟨x, hx, hxw⟩
          · exact absurd he0 (by simp)
          · cases a' with
            | nil =>
              left
              refine ⟨rfl, ?_⟩
              have hxe : e = x := by simpa using hx
              rw [hce, hxe]
              exact hxw
            | cons f t =>
              right
              refine ⟨x, ?_, hxw⟩
              rw [List.getLast?_cons_cons] at hx
              exact hx

/-- Word characters are not whitespace. -/
theorem not_space_of_word (c : Char) (h : isWordChar c = true) : isSpace c = false := by
  by_contra hs
  rw [Bool.not_eq_false] at hs
  have h2 := not_word_of_space c hs
  rw [h] at h2
  exact Bool.noConfusion h2

/-- A non-space block at the front of the collapse output is copied
from the input, past an optional leading whitespace run (possible only
in mid-run state). -/
theorem collapse_prefix_reflect : ∀ (l p : List Char) (w : Bool) (e : List Char),
    p ≠ [] → (∀ c ∈ p, isSpace c = false) →
    collapseAux l w = p ++ e →
    ∃ sp l2, l = sp ++ (p ++ l2) ∧ (∀ c ∈ sp, isSpace c = true) ∧
      e = collapseAux l2 false ∧ (w = false → sp = []) := by
  intro l
  induction l with
  | nil =>
    intro p w e hpne _ heq
    rw [show collapseAux [] w = [] from rfl] at heq
    have h0 := heq
    rw [eq_comm, List.append_eq_nil] at h0
    exact absurd h0.1 hpne
  | cons d ds ih =>
    intro p w e hpne hpns heq
    by_cases hd : isSpace d = true
    · cases w with
      | true =>
        rw [show collapseAux (d :: ds) true = collapseAux ds true by
          simp [collapseAux, hd]] at heq
        obtain ⟨sp, l2, hl, hsp, he, _⟩ := ih p true e hpne hpns heq
        refine ⟨d :: sp, l2, by rw [hl]; rfl, ?_, he, fun h => Bool.noConfusion h⟩
        intro c hc
        rcases List.mem_cons.mp hc with rfl | hc
        · exact hd
        · exact hsp c hc
      | false =>
        rw [show collapseAux (d :: ds) false = ' ' :: collapseAux ds true by
          simp [collapseAux, hd]] at heq
        cases p with
        | nil => exact absurd rfl hpne
        | cons x p2 =>
          rw [List.cons_append, List.cons.injEq] at heq
          have hxs : isSpace x = false := hpns x (by simp)
          rw [← heq.1] at hxs
          exact absurd hxs (by decide)
    · rw [show collapseAux (d :: ds) w = d :: collapseAux ds false by
        simp [collapseAux, hd]] at heq
      cases p with
      | nil => exact absurd rfl hpne
      | cons x p2 =>
        rw [List.cons_append, List.cons.injEq] at heq
        obtain ⟨hdx, htl⟩ := heq
        cases p2 with
        | nil =>
          refine ⟨[], ds, by rw [hdx]; rfl, by simp, ?_, fun _ => rfl⟩
          rw [List.nil_append] at htl
          exact htl.symm
        | cons z t =>
          obtain ⟨sp, l2, hl, hsp, he, hwf⟩ := ih (z :: t) false e (by simp)
            (fun q hq => hpns q (by simp [hq])) htl
          have hsp0 : sp = [] := hwf rfl
          subst hsp0
          rw [List.nil_append] at hl
          exact ⟨[], l2, by rw [hdx, hl]; rfl, by simp, he, fun _ => rfl⟩

/-- The collapse scan (out of a run) preserves a non-space head. -/
theorem collapse_head_false (l : List Char) (y : Char) (hy : isSpace y = false)
    (h : l.head? = some y) : (collapseAux l false).head? = some y := by
  cases l with
  | nil => simp at h
  | cons d ds =>
    have hdy : d = y := by simpa using h
    subst hdy
    rw [show collapseAux (d :: ds) false = d :: collapseAux ds false by
      simp [collapseAux, hy]]
    rfl

/-- Pulling a decomposition of the collapse output back to the input:
the block is found in the input, any word character adjacent to the
block in the input is adjacent to it in the output as well, and when
the output prefix is empty the input prefix is all whitespace. -/
theorem collapse_transport : ∀ (l a : List Char) (w : Bool) (p b : List Char),
    collapseAux l w = a ++ (p ++ b) → p ≠ [] → (∀ c ∈ p, isSpace c = false) →
    ∃ a2 b2, l = a2 ++ (p ++ b2)
      ∧ (∀ x, a2.getLast? = some x → isWordChar x = true → a.getLast? = some x)
      ∧ (∀ y, b2.head? = some y → isWordChar y = true → b.head? = some y)
      ∧ (a = [] → ∀ c ∈ a2, isSpace c = true)
      ∧ (a ≠ [] → a2 ≠ []) := by
  intro l
  induction l with
  | nil =>
    intro a w p b heq hpne _
    rw [show collapseAux [] w = [] from rfl] at heq
    rw [eq_comm, List.append_eq_nil] at heq
    have h2 := heq.2
    rw [List.append_eq_nil] at h2
    exact absurd h2.1 hpne
  | cons d ds ih =>
    intro a w p b heq hpne hpns
    cases a with
    | nil =>
      rw [List.nil_append] at heq
      obtain ⟨sp, l2, hl, hsp, he, _⟩ := collapse_prefix_reflect (d :: ds) p w b hpne hpns heq
      refine ⟨sp, l2, hl, ?_, ?_, fun _ => hsp, fun h => absurd rfl h⟩
      · intro x hx hxw
        have hns := not_word_of_space x (hsp x (getLast?_mem' sp x hx))
        rw [hxw] at hns
        exact Bool.noConfusion hns
      · intro y hy hyw
        rw [he]
        exact collapse_head_false l2 y (not_space_of_word y hyw) hy
    | cons e a' =>
      by_cases hd : isSpace d = true
      · cases w with
        | true =>
          rw [show collapseAux (d :: ds) true = collapseAux ds true by
            simp [collapseAux, hd]] at heq
          obtain ⟨a2, b2, hds, hlast, hhead, _, hne⟩ := ih (e :: a') true p b heq hpne hpns
          refine ⟨d :: a2, b2, by rw [hds]; rfl, ?_, hhead,
            fun h => absurd h (by simp), fun _ => by simp⟩
          intro x hx hxw
          cases a2 with
          | nil =>
            have hdx : d = x := by simpa using hx
            have hns := not_word_of_space x (by rw [← hdx]; exact hd)
            rw [hxw] at hns
            exact Bool.noConfusion hns
          | cons f t =>
            rw [List.getLast?_cons_cons] at hx
            exact hlast x hx hxw
        | false =>
          rw [show collapseAux (d :: ds) false = ' ' :: collapseAux ds true by
            simp [collapseAux, hd], List.cons_append, List.cons.injEq] at heq
          obtain ⟨_, htl⟩ := heq
          cases a' with
          | nil =>
            rw [List.nil_append] at htl
            obtain ⟨sp, l2, hl, hsp, he, _⟩ := collapse_prefix_reflect ds p true b hpne hpns htl
            refine ⟨d :: sp, l2, by rw [hl]; rfl, ?_, ?_,
              fun h => absurd h (by simp), fun _ => by simp⟩
            · intro x hx hxw
              cases sp with
              | nil =>
                have hdx : d = x := by simpa using hx
                have hns := not_word_of_space x (by rw [← hdx]; exact hd)
                rw [hxw] at hns
                exact Bool.noConfusion hns
              | cons f t =>
                rw [List.getLast?_cons_cons] at hx
                have hns := not_word_of_space x (hsp x (getLast?_mem' _ x hx))
                rw [hxw] at hns
                exact Bool.noConfusion hns
            · intro y hy hyw
              rw [he]
              exact collapse_head_false l2 y (not_space_of_word y hyw) hy
          | cons f t =>
            obtain ⟨a2, b2, hds, hlast, hhead, _, hne⟩ := ih (f :: t) true p b htl hpne hpns
            refine ⟨d :: a2, b2, by rw [hds]; rfl, ?_, hhead,
              fun h => absurd h (by simp), fun _ => by simp⟩
            intro x hx hxw
            have ha2ne : a2 ≠ [] := hne (by simp)
            cases a2 with
            | nil => exact absurd rfl ha2ne
            | cons g t2 =>
              rw [List.getLast?_cons_cons] at hx
              have h2 := hlast x hx hxw
              rw [List.getLast?_cons_cons]
              exact h2
      · rw [show collapseAux (d :: ds) w = d :: collapseAux ds false by
          simp [collapseAux, hd], List.cons_append, List.cons.injEq] at heq
        obtain ⟨hde, htl⟩ := heq
        cases a' with
        | nil =>
          rw [List.nil_append] at htl
          obtain ⟨sp, l2, hl, hsp, he, hwf⟩ := collapse_prefix_reflect ds p false b hpne hpns htl
          have hsp0 : sp = [] := hwf rfl
          subst hsp0
          rw [List.nil_append] at hl
          refine ⟨[d], l2, by rw [hl]; rfl, ?_, ?_,
            fun h => absurd h (by simp), fun _ => by simp⟩
          · intro x hx _
            have hdx : d = x := by simpa using hx
            have hex : e = x := by rw [← hde]; exact hdx
            show (e :: ([] : List Char)).getLast? = some x
            rw [hex]
            rfl
          · intro y hy hyw
            rw [he]
            exact collapse_head_false l2 y (not_space_of_word y hyw) hy
        | cons f t =>
          obtain ⟨a2, b2, hds, hlast, hhead, _, hne⟩ := ih (f :: t) false p b htl hpne hpns
          refine ⟨d :: a2, b2, by rw [hds]; rfl, ?_, hhead,
            fun h => absurd h (by simp), fun _ => by simp⟩
          intro x hx hxw
          have ha2ne : a2 ≠ [] := hne (by simp)
          cases a2 with
          | nil => exact absurd rfl ha2ne
          | cons g t2 =>
            rw [List.getLast?_cons_cons] at hx
            have h2 := hlast x hx hxw
            rw [List.getLast?_cons_cons]
            exact h2

/-- Collapsing whitespace preserves the absence of boundary-delimited
phones. -/
theorem collapse_NP (l : List Char) (h : NPfrom false l) :
    NPfrom false (collapseAux l false) := by
  intro a p b heq h11 h1 hd hba hbb
  have hpns : ∀ c ∈ p, isSpace c = false := fun c hc => not_space_of_digit c (hd c hc)
  have hpne : p ≠ [] := by
    intro h0
    rw [h0] at h11
    simp at h11
  obtain ⟨a2, b2, hl, hlast, hhead, hspa, _⟩ := collapse_transport l a false p b heq hpne hpns
  apply h a2 p b2 hl h11 h1 hd ?_ ?_
  · rcases hba with ⟨rfl, _⟩ | ⟨x, hx, hxw⟩
    · cases hE : a2.getLast? with
      | none => exact Or.inl ⟨List.getLast?_eq_none_iff.mp hE, rfl⟩
      | some z =>
        exact Or.inr ⟨z, rfl,
          not_word_of_space z (hspa rfl z (getLast?_mem' _ _ hE))⟩
    · cases hE : a2.getLast? with
      | none => exact Or.inl ⟨List.getLast?_eq_none_iff.mp hE, rfl⟩
      | some z =>
        refine Or.inr ⟨z, rfl, ?_⟩
        by_contra hzw
        rw [Bool.not_eq_false] at hzw
        have h2 := hlast z hE hzw
        rw [hx] at h2
        have hzx : x = z := by simpa using h2
        rw [← hzx] at hzw
        rw [hxw] at hzw
        exact Bool.noConfusion hzw
  · rcases hbb with rfl | ⟨y, hy, hyw⟩
    · cases hE : b2.head? with
      | none => exact Or.inl (List.head?_eq_none_iff.mp hE)
      | some z =>
        refine Or.inr ⟨z, rfl, ?_⟩
        by_contra hzw
        rw [Bool.not_eq_false] at hzw
        have h2 := hhead z hE hzw
        simp at h2
    · cases hE : b2.head? with
      | none => exact Or.inl (List.head?_eq_none_iff.mp hE)
      | some z =>
        refine Or.inr ⟨z, rfl, ?_⟩
        by_contra hzw
        rw [Bool.not_eq_false] at hzw
        have h2 := hhead z hE hzw
        rw [hy] at h2
        have hzy : y = z := by simpa using h2
        rw [← hzy] at hzw
        rw [hyw] at hzw
        exact Bool.noConfusion hzw

/-- Left stripping preserves the absence of boundary-delimited phones. -/
theorem trimL_NP (l : List Char) (h : NPfrom false l) : NPfrom false (trimL l) := by
  intro a p b heq h11 h1 hd hba hbb
  obtain ⟨sp, hsp, hsps⟩ := trimL_decomp l
  apply h (sp ++ a) p b (by rw [hsp, heq, List.append_assoc]) h11 h1 hd ?_ hbb
  rcases hba with ⟨rfl, _⟩ | ⟨x, hx, hxw⟩
  · rw [List.append_nil]
    cases hE : sp.getLast? with
    | none => exact Or.inl ⟨List.getLast?_eq_none_iff.mp hE, rfl⟩
    | some z =>
      exact Or.inr ⟨z, rfl, not_word_of_space z (hsps z (getLast?_mem' _ _ hE))⟩
  · refine Or.inr ⟨x, ?_, hxw⟩
    rw [List.getLast?_append, hx]
    rfl

/-- Right stripping preserves the absence of boundary-delimited phones. -/
theorem trimR_NP (l : List Char) (h : NPfrom false l) : NPfrom false (trimR l) := by
  intro a p b heq h11 h1 hd hba hbb
  obtain ⟨sp, hsp, hsps⟩ := trimR_decomp l
  apply h a p (b ++ sp) (by rw [hsp, heq, List.append_assoc, List.append_assoc]) h11 h1 hd hba ?_
  rcases hbb with rfl | ⟨y, hy, hyw⟩
  · rw [List.nil_append]
    cases sp with
    | nil => exact Or.inl rfl
    | cons g t =>
      exact Or.inr ⟨g, rfl, not_word_of_space g (hsps g (by simp))⟩
  · right
    refine ⟨y, ?_, hyw⟩
    cases b with
    | nil => simp at hy
    | cons f t =>
      have hfy : f = y := by simpa using hy
      rw [List.cons_append]
      rw [← hfy]
      rfl

/-- On a list whose whitespace is single plain spaces, the collapse
scan is the identity. -/
theorem collapse_fix : ∀ (l : List Char),
    (∀ c ∈ l, isSpace c = true → c = ' ') → noAdjSpace l = true →
    (collapseAux l false = l ∧
      ((∀ c, l.head? = some c → isSpace c = false) → collapseAux l true = l)) := by
  intro l
  induction l with
  | nil => exact fun _ _ => ⟨rfl, fun _ => rfl⟩
  | cons d ds ih =>
    intro hbl hadj
    have hbl2 : ∀ c ∈ ds, isSpace c = true → c = ' ' := fun c hc => hbl c (by simp [hc])
    rw [noAdjSpace_cons] at hadj
    obtain ⟨hadj2, hpair⟩ := hadj
    obtain ⟨ihf, iht⟩ := ih hbl2 hadj2
    by_cases hd : isSpace d = true
    · have hds : d = ' ' := hbl d (by simp) hd
      constructor
      · rw [show collapseAux (d :: ds) false = ' ' :: collapseAux ds true by
          simp [collapseAux, hd]]
        rw [iht ?_, hds]
        intro c hc
        have h2 := hpair c hc
        rw [hd] at h2
        simpa using h2
      · intro hhead
        have h2 := hhead d rfl
        rw [hd] at h2
        exact Bool.noConfusion h2
    · have hd2 : isSpace d = false := by simpa using hd
      constructor
      · rw [show collapseAux (d :: ds) false = d :: collapseAux ds false by
          simp [collapseAux, hd], ihf]
      · intro _
        rw [show collapseAux (d :: ds) true = d :: collapseAux ds false by
          simp [collapseAux, hd], ihf]

/-- A list with a non-space head is fixed by the left strip. -/
theorem trimL_fix (l : List Char) (h : ∀ c, l.head? = some c → isSpace c = false) :
    trimL l = l := by
  cases l with
  | nil => rfl
  | cons d ds =>
    unfold trimL
    rw [List.dropWhile_cons, h d rfl]
    simp

/-- A list with a non-space last element is fixed by the right strip. -/
theorem trimR_fix (l : List Char) (h : ∀ c, l.getLast? = some c → isSpace c = false) :
    trimR l = l := by
  have h2 : ∀ c, l.reverse.head? = some c → isSpace c = false := by
    intro c hc
    rw [List.head?_reverse] at hc
    exact h c hc
  have h3 := trimL_fix l.reverse h2
  unfold trimL at h3
  unfold trimR
  rw [h3, List.reverse_reverse]

/-- The per-record content transformation of `clean_messages` is
idempotent. -/
theorem cleanContent_fix (s : String) : cleanContent (cleanContent s) = cleanContent s := by
  have hnpR : NPfrom false (redactAux s.data false 0) :=
    redact_NP s.data.length s.data false le_rfl
  have hnpO : NPfrom false (collapseAux (redactAux s.data false 0) false) :=
    collapse_NP _ hnpR
  have hnpy : NPfrom false (trimR (trimL (collapseAux (redactAux s.data false 0) false))) :=
    trimR_NP _ (trimL_NP _ hnpO)
  have hblank : ∀ c ∈ trimR (trimL (collapseAux (redactAux s.data false 0) false)),
      isSpace c = true → c = ' ' := by
    intro c hc hs
    apply collapse_space_blank (redactAux s.data false 0) false c ?_ hs
    obtain ⟨sp2, hd2, _⟩ := trimR_decomp (trimL (collapseAux (redactAux s.data false 0) false))
    obtain ⟨sp1, hd1, _⟩ := trimL_decomp (collapseAux (redactAux s.data false 0) false)
    rw [hd1]
    apply List.mem_append_right
    rw [hd2]
    exact List.mem_append_left _ hc
  have hadj : noAdjSpace (trimR (trimL (collapseAux (redactAux s.data false 0) false))) = true := by
    have hOadj : noAdjSpace (collapseAux (redactAux s.data false 0) false) = true :=
      (collapse_noAdj _ false).1
    obtain ⟨sp1, hd1, _⟩ := trimL_decomp (collapseAux (redactAux s.data false 0) false)
    rw [hd1] at hOadj
    have h1 := (noAdjSpace_append _ _ hOadj).2
    obtain ⟨sp2, hd2, _⟩ := trimR_decomp (trimL (collapseAux (redactAux s.data false 0) false))
    rw [hd2] at h1
    exact (noAdjSpace_append _ _ h1).1
  have hhead : ∀ c, (trimR (trimL (collapseAux (redactAux s.data false 0) false))).head? =
      some c → isSpace c = false := by
    intro c hc
    exact trimL_head _ c (trimR_head _ c hc)
  have hlast : ∀ c, (trimR (trimL (collapseAux (redactAux s.data false 0) false))).getLast? =
      some c → isSpace c = false :=
    fun c hc => trimR_getLast _ c hc
  have hred := redact_fix _ false hnpy
  have hcol := (collapse_fix _ hblank hadj).1
  have htl := trimL_fix _ hhead
  have htr := trimR_fix _ hlast
  apply String.ext
  show trimR (trimL (collapseAux (redactAux
    (trimR (trimL (collapseAux (redactAux s.data false 0) false))) false 0) false)) =
    trimR (trimL (collapseAux (redactAux s.data false 0) false))
  rw [hred, hcol, htl, htr]

/-- Claim C5: the cleaning pass is idempotent. -/
theorem claim_C5 : ∀ rows : List ChatRow,
    clean_messages (clean_messages rows) = clean_messages rows := by
  intro rows
  induction rows with
  | nil => rfl
  | cons r rs ih =>
    by_cases hc : cleanContent r.content = ""
    · have h1 : clean_messages (r :: rs) = clean_messages rs := by
        unfold clean_messages
        rw [List.filterMap_cons]
        simp [hc]
      rw [h1, ih]
    · have h1 : clean_messages (r :: rs) =
          ⟨r.time, r.sender, cleanContent r.content⟩ :: clean_messages rs := by
        unfold clean_messages
        rw [List.filterMap_cons]
        simp [hc]
      rw [h1]
      have h2 : clean_messages (ChatRow.mk r.time r.sender (cleanContent r.content) ::
          clean_messages rs) =
          ChatRow.mk r.time r.sender (cleanContent r.content) ::
            clean_messages (clean_messages rs) := by
        unfold clean_messages
        rw [List.filterMap_cons]
        simp [cleanContent_fix, hc]
      rw [h2, ih]
